import Mathlib

/-!
Rand.cpp: generator and binned random function

A shallow embedding of `src/boosting/common/Rand.cpp`.

Conventions of the embedding:
* `double`/`float` values are exact rationals (`ℚ`); the library functions `exp`, `sqrt`
  and the constant `PI` are parameters of the operations that call them.
* `int`/`long` values are unbounded integers (`ℤ`); `(int) x` is truncation toward zero.
* `assert(c)` and `abortError` stop the program: the operation returns `none`.
  `RF.initNoAssert` is `init` in a build where the asserts are compiled out.
* `RF.setCdf` takes the product `countPerBin*getCount()` exactly; `RF.setCdf32` evaluates
  that `int` product in 32-bit arithmetic with wrap-around.
* An element access outside a container returns `none` as well (in `randperm`, where
  it can only happen for a draw outside `(0,1)`, it reads `0` and writes nothing).
* The value returned by each call of `randf()` inside `randi`, `randperm` and
  `sampleNonSetCdf` is supplied by the caller as a draw (`draws i` is the value of the
  `i`-th call).
* The recursion of `sampleNonSetCdf` is bounded by a number of calls; the outcome
  `recursing` says the bound was reached.
-/

namespace Rand

/-! ## Generator -/

/-- The C cast `(int) x` of a floating value: truncation toward zero. -/
def truncToInt (x : ℚ) : ℤ := if 0 ≤ x then ⌊x⌋ else ⌈x⌉

/-- Source function `randi(minV, mavV)`, with `u` the value returned by its call of `randf()`:
`minV + (int) (((float)(mavV-minV+1))*randf())`. -/
def randi (minV mavV : ℤ) (u : ℚ) : ℤ :=
  minV + truncToInt (((mavV - minV + 1 : ℤ) : ℚ) * u)

/-- Source function `std::vector::resize(k, 0)`: truncate to `k` entries or pad with zeros. -/
def resize (v : List ℤ) (k : ℕ) : List ℤ :=
  v.take k ++ List.replicate (k - v.length) 0

/-- Body of the permuting loop of `randperm` at index `i`:
`r = randi(i, n-1); t = permuted[r]; permuted[r] = permuted[i]; permuted[i] = t`. -/
def swapStep (n : ℤ) (draws : ℕ → ℚ) (permuted : List ℤ) (i : ℕ) : List ℤ :=
  let r := randi i (n - 1) (draws i)
  let t := permuted.getD r.toNat 0
  (permuted.set r.toNat (permuted.getD i 0)).set i t

/-- Source function `randperm(permuted, n, k)` for `n ≥ 0`; the result is the final content
of `permuted`.
`draws i` is the value `randf()` returns in iteration `i` of the permuting loop. -/
def randperm (draws : ℕ → ℚ) (n : ℕ) (k : ℤ) : List ℤ :=
  let k := if k < 0 then (n : ℤ) else k
  let k := if k > n then (n : ℤ) else k
  let permuted := (List.range n).map Int.ofNat
  let permuted := (List.range k.toNat).foldl (swapStep n draws) permuted
  resize permuted k.toNat

/-- Constant `IA` of `randf`. -/
def IA : ℤ := 16807
/-- Constant `IM` of `randf`. -/
def IM : ℤ := 2147483647
/-- Constant `AM = 1.0/IM` of `randf`. -/
def AM : ℚ := 1 / (IM : ℚ)
/-- Constant `IQ` of `randf`. -/
def IQ : ℤ := 127773
/-- Constant `IR` of `randf`. -/
def IR : ℤ := 2836
/-- Constant `NTAB` of `randf`. -/
def NTAB : ℤ := 32
/-- Constant `NDIV = 1+(IM-1)/NTAB` of `randf` (a division of longs). -/
def NDIV : ℤ := 1 + Int.tdiv (IM - 1) NTAB
/-- Constant `EPS = 1.2e-7` of `randf`. -/
def EPS : ℚ := 12 / 100000000
/-- Constant `RNMX = 1.0-EPS` of `randf`. -/
def RNMX : ℚ := 1 - EPS

/-- The statics read and written by `randf`: `RANDSEED`, `iy` and the shuffle table `iv`. -/
structure GenState where
  RANDSEED : ℤ
  iy : ℤ
  iv : List ℤ
  deriving DecidableEq

/-- State at program start for a given initial value of `RANDSEED`
(the file sets `-1`): `iy = 0` and `iv` zero-initialised with `NTAB` cells. -/
def GenState.initial (seed : ℤ) : GenState :=
  { RANDSEED := seed, iy := 0, iv := List.replicate 32 0 }

/-- State in which the program starts: `static long RANDSEED = -1;`, `static long iy=0;` and
the zero-initialised `static long iv[NTAB]`. -/
def GenState.start : GenState := GenState.initial (-1)

/-- The update `k=RANDSEED/IQ; RANDSEED=IA*(RANDSEED-k*IQ)-IR*k;
if (RANDSEED < 0) RANDSEED += IM;` applied to the value `s` of `RANDSEED`. -/
def schrage (s : ℤ) : ℤ :=
  let k := Int.tdiv s IQ
  let s := IA * (s - k * IQ) - IR * k
  if s < 0 then s + IM else s

/-- Body of the loop that loads the shuffle table, at loop index `j`. -/
def warmStep (st : GenState) (j : ℕ) : GenState :=
  let seed := schrage st.RANDSEED
  { RANDSEED := seed, iy := st.iy, iv := if (j : ℤ) < NTAB then st.iv.set j seed else st.iv }

/-- The `//INITIALIZE` block of `randf`, run when `RANDSEED <= 0 || !iy`. -/
def randfInit (st : GenState) : GenState :=
  if st.RANDSEED ≤ 0 ∨ st.iy = 0 then
    let seed := if -st.RANDSEED < 1 then 1 else -st.RANDSEED
    let st := (List.range 40).reverse.foldl warmStep { st with RANDSEED := seed }
    { st with iy := st.iv.getD 0 0 }
  else st

/-- One call of `randf()`: the returned value (exact, before rounding to `float`) and the
new statics; `none` when the index `j` falls outside the shuffle table. -/
def randf (st : GenState) : Option (ℚ × GenState) :=
  let st := randfInit st
  let seed := schrage st.RANDSEED
  let j := truncToInt ((st.iy : ℚ) / (NDIV : ℚ))
  if 0 ≤ j ∧ j < NTAB then
    let iy := st.iv.getD j.toNat 0
    let iv := st.iv.set j.toNat seed
    let temp := AM * (iy : ℚ)
    some (if temp > RNMX then RNMX else temp, { RANDSEED := seed, iy := iy, iv := iv })
  else none

/-- Result of call number `n` (from 0) of `randf()` in a run that starts in state `st`. -/
def randfNth (st : GenState) : ℕ → Option (ℚ × GenState)
  | 0 => randf st
  | n + 1 => (randf st).bind (fun p => randfNth p.2 n)

/-- The values `RANDSEED`, `iy` and the cells of `iv` take once the table is loaded. -/
def Good (x : ℤ) : Prop := 1 ≤ x ∧ x ≤ 2147483646

/-- Invariant of the generator after a call of `randf`. -/
def GenInv (st : GenState) : Prop :=
  Good st.RANDSEED ∧ Good st.iy ∧ st.iv.length = 32 ∧ ∀ idx, idx < 32 → Good (st.iv.getD idx 0)

/-! ## Random function (RF) -/

/-- Element read `m(i)` of a one-row container; `none` outside it. -/
def at? {α : Type} (m : List α) (i : ℤ) : Option α :=
  if 0 ≤ i then m[i.toNat]? else none

/-- Element write `m(i) = v` of a one-row container; `none` outside it. -/
def setAt {α : Type} (m : List α) (i : ℤ) (v : α) : Option (List α) :=
  if 0 ≤ i ∧ i.toNat < m.length then some (m.set i.toNat v) else none

/-- A counted loop `for (i = 0; i < n; i++) body`, stopped by a failing body. -/
def forLoop {σ : Type} (n : ℕ) (body : σ → ℕ → Option σ) (s : σ) : Option σ :=
  (List.range n).foldlM body s

/-- The members of an `RF`: bins `_pdf` (a `1 × _cnt` matrix), bin count, origin, bin
width and its inverse, and the CDF cache (`_cdfCount`, `_cdfLookup`, `_cdf`). -/
structure RF where
  _pdf : List ℚ
  _cnt : ℤ
  _minV : ℚ
  _w : ℚ
  _wInv : ℚ
  _cdfCount : ℤ
  _cdfLookup : List ℤ
  _cdf : List ℚ
  deriving DecidableEq

/-- Modelled from the spec: `getCount()` of the absent header `Rand.h`, the bin count. -/
def RF.getCount (r : RF) : ℤ := r._cnt

/-- Modelled from the spec: `getIndex(x)` of the absent header `Rand.h`,
`floor((x - minV) * binWidthInv)`. -/
def RF.getIndex (r : RF) (x : ℚ) : ℤ := ⌊(x - r._minV) * r._wInv⌋

/-- Modelled from the spec: `inRange(index)` of the absent header `Rand.h`,
`0 ≤ index < binCount`. -/
def RF.inRange (r : RF) (index : ℤ) : Bool := decide (0 ≤ index ∧ index < r._cnt)

/-- Modelled from the spec: `getVal(i)` of the absent header `Rand.h`, `minV + i*w`. -/
def RF.getVal (r : RF) (i : ℤ) : ℚ := r._minV + (i : ℚ) * r._w

/-- Source function `RF::setAllBins(p)`: `_pdf.SetValue(p); _cdfCount = 0`. -/
def RF.setAllBins (r : RF) (p : ℚ) : RF :=
  { r with _pdf := r._pdf.map (fun _ => p), _cdfCount := 0 }

/-- Source function `RF::init(minV, mavV, w)` in a build with asserts active: both asserts
abort, so the statement `if(_cnt <= 0) return;` after the second one is never taken (see
`RF.initNoAssert` for the other build). `_pdf.SetDimension(1,_cnt)` allocates `_cnt` cells.
(`1.0/_w` is the rational quotient, `0` for `w = 0`.) -/
def RF.init (r : RF) (minV mavV w : ℚ) : Option RF :=
  if ¬ (minV ≤ mavV) then none else
  let wInv := 1 / w
  let cnt := truncToInt ((mavV - minV) * wInv + 101 / 100)
  let r := { r with _minV := minV, _w := w, _wInv := wInv, _cnt := cnt }
  if ¬ (cnt > 0) then none else
  if cnt ≤ 0 then some r else
  let r := { r with _pdf := List.replicate cnt.toNat 0 }
  let r := r.setAllBins 0
  some { r with _cdfCount := 0 }

/-- Source function `RF::setOneBin(x, p)`. -/
def RF.setOneBin (r : RF) (x p : ℚ) : Option RF :=
  let index := r.getIndex x
  if r.inRange index then
    (setAt r._pdf index p).map (fun pdf => { r with _pdf := pdf, _cdfCount := 0 })
  else some { r with _cdfCount := 0 }

/-- Source function `RF::addToBin(x, p)`. -/
def RF.addToBin (r : RF) (x p : ℚ) : Option RF :=
  let index := r.getIndex x
  if r.inRange index then
    (at? r._pdf index).bind (fun old =>
      (setAt r._pdf index (old + p)).map (fun pdf => { r with _pdf := pdf, _cdfCount := 0 }))
  else some { r with _cdfCount := 0 }

/-- Source function `RF::normalize()`: the new object and the returned flag. -/
def RF.normalize (r : RF) : RF × Bool :=
  let r := { r with _cdfCount := 0 }
  let sum := r._pdf.sum
  if sum > 0 then ({ r with _pdf := r._pdf.map (fun v => v * (1 / sum)) }, true)
  else (r, false)

/-- Source function `RF::setUniform(minV, mavV, w)`. -/
def RF.setUniform (r : RF) (minV mavV w : ℚ) : Option RF :=
  (r.init minV mavV w).map (fun r => ((r.setAllBins 1).normalize).1)

/-- Source function `RF::setUniformInt(minV, mavV)`. -/
def RF.setUniformInt (r : RF) (minV mavV : ℤ) : Option RF :=
  (r.init (minV : ℚ) (mavV : ℚ) 1).map (fun r => ((r.setAllBins 1).normalize).1)

/-- A `Matrixd` kernel as handed to `smooth`: its row count and its entries. -/
structure Kernel where
  rows : ℕ
  vals : List ℚ

/-- Source function `RF::smooth(kernel1)`; `ConvHor src kernel` is the external horizontal
convolution,
whose result is stored in `_pdf`. -/
def RF.smooth (ConvHor : List ℚ → Kernel → List ℚ) (r : RF) (kernel1 : Kernel) : Option RF :=
  if kernel1.rows ≠ 1 then none else
  let pdfCopy := r._pdf
  let r := { r with _pdf := ConvHor pdfCopy kernel1 }
  let r := { r with _cdfCount := 0 }
  some r.normalize.1

/-- Source function `RF::gaussSmooth(sigma)`; `SetGaussian` builds the external Gaussian kernel. -/
def RF.gaussSmooth (SetGaussian : ℚ → Kernel) (ConvHor : List ℚ → Kernel → List ℚ)
    (r : RF) (sigma : ℚ) : Option RF :=
  let kernel1 := SetGaussian sigma
  if kernel1.rows ≠ 1 then none else
  let pdfCopy := r._pdf
  let r := { r with _pdf := ConvHor pdfCopy kernel1 }
  let r := { r with _cdfCount := 0 }
  some r.normalize.1

/-- Source function `RF::readFrmStrm(strm)`; the arguments are the values the stream delivers. -/
def RF.readFrmStrm (r : RF) (pdf : List ℚ) (cnt : ℤ) (minV w wInv : ℚ) : RF :=
  let r := { r with _cdfCount := 0 }
  { r with _pdf := pdf, _cnt := cnt, _minV := minV, _w := w, _wInv := wInv }

/-- Source function `RF::pdf(x)`. -/
def RF.pdf (r : RF) (x : ℚ) : Option ℚ :=
  let index := r.getIndex x
  if r.inRange index then at? r._pdf index else some 0

/-- Source function `RF::cdf(x)`. -/
def RF.cdf (r : RF) (x : ℚ) : Option ℚ :=
  let index := r.getIndex x
  if index ≥ r.getCount then some 1 else
  if r._cdfCount > 0 then at? r._cdf index else
  forLoop (index + 1).toNat (fun cum j => (at? r._pdf j).map (fun v => cum + v)) 0

/-- The loop `while (cum < cumi) { _cdfLookup(j++) = i; cum += cum_del; }` of `setCdf`;
`room` counts the cells of `_cdfLookup` from `j` on, a write with no room is outside
the table. The state is `(_cdfLookup, j, cum)`. -/
def fillWhile (cumi cum_del : ℚ) (i : ℤ) :
    ℕ → List ℤ × ℕ × ℚ → Option (List ℤ × ℕ × ℚ)
  | room, (tbl, j, cum) =>
    if cum < cumi then
      match room with
      | 0 => none
      | room + 1 => fillWhile cumi cum_del i room (tbl.set j i, j + 1, cum + cum_del)
    else some (tbl, j, cum)

/-- Body of the loop over the bins in `setCdf`: `cumi += _pdf(i)` and the `while` loop.
The state is `((_cdfLookup, j, cum), cumi)`. -/
def fillStep (pdf : List ℚ) (cum_del : ℚ) (s : (List ℤ × ℕ × ℚ) × ℚ) (i : ℕ) :
    Option ((List ℤ × ℕ × ℚ) × ℚ) :=
  (at? pdf i).bind (fun v =>
    let cumi := s.2 + v
    (fillWhile cumi cum_del i (s.1.1.length - s.1.2.1) s.1).map (fun t => (t, cumi)))

/-- The part `// create loopup table` of `setCdf`, run once `_cdfCount` is set: the final
`(_cdfLookup, j, cum)`. -/
def RF.fillLookup (r : RF) : Option (List ℤ × ℕ × ℚ) :=
  let tbl : List ℤ := List.replicate r._cdfCount.toNat 0
  let cum_del : ℚ := 1 / (r._cdfCount : ℚ)
  let cum : ℚ := cum_del / 10
  (forLoop r.getCount.toNat (fillStep r._pdf cum_del) ((tbl, 0, cum), 0)).map (fun s => s.1)

/-- The part `// create _cdf` of `setCdf`: the final `_cdf`. -/
def RF.buildCdf (r : RF) : Option (List ℚ) :=
  let cdf : List ℚ := List.replicate r.getCount.toNat 0
  (at? r._pdf 0).bind (fun p0 =>
  (setAt cdf 0 p0).bind (fun cdf0 =>
  forLoop (r.getCount.toNat - 1) (fun (c : List ℚ) (j0 : ℕ) =>
      let j : ℤ := (j0 : ℤ) + 1
      (at? c (j - 1)).bind (fun prev =>
      (at? r._pdf j).bind (fun pj => setAt c j (prev + pj)))) cdf0))

/-- Source function `RF::setCdf(countPerBin)`: the new object and the returned flag. The
product `countPerBin*getCount()` is the exact integer product here; `RF.setCdf32` evaluates
it as the 32-bit `int` product of the source. -/
def RF.setCdf (r : RF) (countPerBin : ℤ) : Option (RF × Bool) :=
  let n := r.normalize
  if n.2 = false then some (n.1, false) else
  let r := n.1
  let countPerBin := if countPerBin < 1 then 1 else countPerBin
  let r := { r with _cdfCount := min 1000000 (countPerBin * r.getCount) }
  r.fillLookup.bind (fun s =>
    if (s.2.1 : ℤ) ≠ r._cdfCount then none else
    let r := { r with _cdfLookup := s.1 }
    r.buildCdf.map (fun c => ({ r with _cdf := c }, true)))

/-- Bin `i` is the smallest bin index whose cumulative probability
`pdf(0) + ... + pdf(i)` exceeds `t`. -/
def IsFirstExceed (pdf : List ℚ) (t : ℚ) (i : ℕ) : Prop :=
  i < pdf.length ∧ t < (pdf.take (i + 1)).sum ∧ ∀ k, k < i → (pdf.take (k + 1)).sum ≤ t

/-- An `RF` object before any initializer ran: no bins, no cache. -/
def RF.empty : RF := ⟨[], 0, 0, 0, 0, 0, [], []⟩

/-- The bins of `r` fill the container: `_pdf` has exactly `_cnt` cells. -/
def RF.Sized (r : RF) : Prop := (r._pdf.length : ℤ) = r._cnt

instance (r : RF) : Decidable r.Sized := by
  unfold RF.Sized
  infer_instance

/-- An `RF` with a built cache (`_cdfCount = 4`), the state `setUniformInt(0,1)` followed
by `setCdf(2)` produces. -/
def RF.built : RF := ⟨[1 / 2, 1 / 2], 2, 0, 1, 1, 4, [0, 0, 1, 1], [1 / 2, 1]⟩

/-- The state `init(0, 1, 1/2)` produces from `RF.empty`: three zero bins over `[0, 1]`. -/
def RF.initHalf : RF := ⟨[0, 0, 0], 3, 0, 1 / 2, 1 / (1 / 2), 0, [], []⟩

/-- Invariant of the loop over the bins in `setCdf`, after `i` bins: the table keeps its
size, `cum` is threshold number `j`, no earlier bin exceeds it, and every entry written
so far names the first bin whose cumulative probability exceeds the entry's threshold. -/
def FillInv (pdf : List ℚ) (del c0 : ℚ) (len : ℕ) (i : ℕ) (s : (List ℤ × ℕ × ℚ) × ℚ) : Prop :=
  s.1.1.length = len ∧ s.1.2.1 ≤ len ∧ s.1.2.2 = c0 + (s.1.2.1 : ℚ) * del ∧
  i ≤ pdf.length ∧ s.2 = (pdf.take i).sum ∧
  (∀ k, k < i → (pdf.take (k + 1)).sum ≤ s.1.2.2) ∧
  (∀ m, m < s.1.2.1 → ∃ b : ℕ, s.1.1[m]? = some (b : ℤ) ∧
    IsFirstExceed pdf (c0 + (m : ℚ) * del) b)

/-- Two bins `[1/5, 4/5]` over `[0, 1]`, no cache built. -/
def RF.fifths : RF := ⟨[1 / 5, 4 / 5], 2, 0, 1, 1, 0, [], []⟩

/-- Value of a 32-bit signed `long` after wrap-around modulo `2^32`. -/
def wrap32 (x : ℤ) : ℤ := (x + 2147483648) % 4294967296 - 2147483648

/-- The Schrage update of `randf` with every operation evaluated in 32-bit signed
arithmetic with wrap-around. -/
def schrage32 (s : ℤ) : ℤ :=
  let k := Int.tdiv s IQ
  let s := wrap32 (wrap32 (IA * wrap32 (s - wrap32 (k * IQ))) - wrap32 (IR * k))
  if s < 0 then wrap32 (s + IM) else s

/-- The value `x` fits a 32-bit signed integer. -/
def Fits32 (x : ℤ) : Prop := -2147483648 ≤ x ∧ x ≤ 2147483647

/-- The state `setCdf(3)` produces from `RF.fifths`: a table of six entries. -/
def RF.fifthsBuilt : RF := ⟨[1 / 5, 4 / 5], 2, 0, 1, 1, 6, [0, 0, 1, 1, 1, 1], [1 / 5, 1]⟩

/-- How a call of `sampleNonSetCdf` ends: it returns `v`, it stops in `abortError`, it reads
a bin outside `_pdf`, or it still recurses after the number of calls the model allows. -/
inductive SampleOutcome where
  | value (v : ℚ)
  | abort
  | outside
  | recursing
  deriving DecidableEq

/-- The scan `for (index=0; index<getCount(); index++) { sum += _pdf(index);
if (sum>=v && _pdf(index)>0.0) break; }` of `sampleNonSetCdf`, with `n` bins left to visit:
the final `index` (`getCount()` when the loop runs to its end), `none` for a read outside
`_pdf`. -/
def scanLoop (pdf : List ℚ) (v : ℚ) : ℕ → ℤ → ℚ → Option ℤ
  | 0, index, _ => some index
  | n + 1, index, sum =>
    (at? pdf index).bind (fun p =>
      if sum + p ≥ v ∧ p > 0 then some index else scanLoop pdf v n (index + 1) (sum + p))

/-- Source function `RF::sampleNonSetCdf(cumsum)`. `draws k` is the value of `randf()` in
call number `k` of the recursion; `calls` bounds the number of calls (the first one
included). Modelled from the spec: the default argument `cumsum = 0` of the recursive call
`sampleNonSetCdf()`, declared in the absent header `Rand.h`. -/
def RF.sampleNonSetCdf (r : RF) (draws : ℕ → ℚ) : ℕ → ℕ → ℚ → SampleOutcome
  | 0, _, _ => SampleOutcome.recursing
  | calls + 1, k, cumsum =>
    let cumsum := if cumsum = 0 then r._pdf.sum else cumsum
    if cumsum = 0 then SampleOutcome.abort else
    let v := draws k * cumsum
    match scanLoop r._pdf v r.getCount.toNat 0 0 with
    | none => SampleOutcome.outside
    | some index =>
      if index = r.getCount then r.sampleNonSetCdf draws calls (k + 1) 0
      else SampleOutcome.value (r.getVal index)

/-- Three bins `[0, 1/4, 3/4]` over `[0, 2]`, no cache built. -/
def RF.quarters : RF := ⟨[0, 1 / 4, 3 / 4], 3, 0, 1, 1, 0, [], []⟩

/-- Three zero bins over `[0, 2]`, no cache built. -/
def RF.zeros : RF := ⟨[0, 0, 0], 3, 0, 1, 1, 0, [], []⟩

/-- Body of the permuting loop of `randperm` at index `i` when `randi(i, n-1)` returns `r`:
`t = permuted[r]; permuted[r] = permuted[i]; permuted[i] = t`. -/
def swapWith (permuted : List ℤ) (i : ℕ) (r : ℤ) : List ℤ :=
  let t := permuted.getD r.toNat 0
  (permuted.set r.toNat (permuted.getD i 0)).set i t

/-- Content of `permuted` in `randperm` after `m` iterations of the permuting loop, when
iteration `i` gets the value `picks[i]` from `randi(i, n-1)`. -/
def permState (n : ℕ) (picks : List ℤ) (m : ℕ) : List ℤ :=
  (List.range m).foldl (fun p i => swapWith p i (picks.getD i 0))
    ((List.range n).map Int.ofNat)

/-- Result of `randperm(permuted, n, k)` for `k = picks.length`, as a function of the values
`picks[0], ..., picks[k-1]` that the calls `randi(i, n-1)` return. -/
def randpermPicks (n : ℕ) (picks : List ℤ) : List ℤ :=
  resize (permState n picks picks.length) picks.length

/-- The first `m` picks are values `randi(i, n-1)` can return: `i ≤ picks[i] ≤ n-1`. -/
def ValidUpTo (n : ℕ) (picks : List ℤ) (m : ℕ) : Prop :=
  ∀ i, i < m → (i : ℤ) ≤ picks.getD i 0 ∧ picks.getD i 0 ≤ (n : ℤ) - 1

/-- Draw sequences `(r_0, ..., r_{k-1})` with `i ≤ r_i ≤ n-1`. -/
def ValidPicks (n k : ℕ) : Set (List ℤ) :=
  {picks | picks.length = k ∧ ValidUpTo n picks k}

/-- Length-`k` sequences of pairwise distinct values in `[0, n)`. -/
def DistinctInRange (n k : ℕ) : Set (List ℤ) :=
  {out | out.length = k ∧ out.Nodup ∧ ∀ x ∈ out, 0 ≤ x ∧ x < (n : ℤ)}

/-- Probability that independent picks, the `i`-th uniform on the `n - i` values
`i, ..., n-1`, equal one given valid sequence of length `k`. -/
def pickProb (n k : ℕ) : ℚ :=
  ((List.range k).map (fun (i : ℕ) => 1 / ((n : ℚ) - (i : ℚ)))).prod

/-- Source function `RF::init(minV, mavV, w)` in a build where the asserts are compiled out
(`NDEBUG`): the checks `assert(minV<=mavV)` and `assert(_cnt>0)` do nothing and
`if(_cnt <= 0) return;` leaves the function before the bins and `_cdfCount` are touched. -/
def RF.initNoAssert (r : RF) (minV mavV w : ℚ) : RF :=
  let wInv := 1 / w
  let cnt := truncToInt ((mavV - minV) * wInv + 101 / 100)
  let r := { r with _minV := minV, _w := w, _wInv := wInv, _cnt := cnt }
  if cnt ≤ 0 then r else
  let r := { r with _pdf := List.replicate cnt.toNat 0 }
  let r := r.setAllBins 0
  { r with _cdfCount := 0 }

/-- Source function `RF::setCdf(countPerBin)` with the product `countPerBin*getCount()` of
two `int`s evaluated in 32-bit signed arithmetic with wrap-around; everything else as in
`RF.setCdf`. -/
def RF.setCdf32 (r : RF) (countPerBin : ℤ) : Option (RF × Bool) :=
  let n := r.normalize
  if n.2 = false then some (n.1, false) else
  let r := n.1
  let countPerBin := if countPerBin < 1 then 1 else countPerBin
  let r := { r with _cdfCount := min 1000000 (wrap32 (countPerBin * r.getCount)) }
  r.fillLookup.bind (fun s =>
    if (s.2.1 : ℤ) ≠ r._cdfCount then none else
    let r := { r with _cdfLookup := s.1 }
    r.buildCdf.map (fun c => ({ r with _cdf := c }, true)))

/-! # Theorems -/

/-! ### Lemmas on `randi` and the swap -/

theorem truncToInt_of_nonneg {x : ℚ} (h : 0 ≤ x) : truncToInt x = ⌊x⌋ := by
  simp [truncToInt, h]

theorem randi_mem_range (i n : ℤ) (u : ℚ) (hin : i < n) (h0 : 0 < u) (h1 : u < 1) :
    i ≤ randi i (n - 1) u ∧ randi i (n - 1) u < n := by
  have hpos : (0 : ℚ) < ((n - 1 - i + 1 : ℤ) : ℚ) := by
    have : (0 : ℤ) < n - 1 - i + 1 := by omega
    exact_mod_cast this
  have hx : (0 : ℚ) ≤ ((n - 1 - i + 1 : ℤ) : ℚ) * u := le_of_lt (mul_pos hpos h0)
  have hlt : ((n - 1 - i + 1 : ℤ) : ℚ) * u < ((n - 1 - i + 1 : ℤ) : ℚ) := by
    calc ((n - 1 - i + 1 : ℤ) : ℚ) * u < ((n - 1 - i + 1 : ℤ) : ℚ) * 1 :=
          mul_lt_mul_of_pos_left h1 hpos
      _ = _ := mul_one _
  unfold randi
  rw [truncToInt_of_nonneg hx]
  have hf0 : 0 ≤ ⌊((n - 1 - i + 1 : ℤ) : ℚ) * u⌋ := Int.floor_nonneg.mpr hx
  have hf1 : ⌊((n - 1 - i + 1 : ℤ) : ℚ) * u⌋ < n - 1 - i + 1 := Int.floor_lt.mpr hlt
  constructor <;> omega

theorem getD_cons_set_perm (l : List ℤ) (j : ℕ) (a : ℤ) (h : j < l.length) :
    List.Perm (l.getD j 0 :: l.set j a) (a :: l) := by
  induction l generalizing j with
  | nil => simp at h
  | cons b t ih =>
    cases j with
    | zero => simpa using List.Perm.swap a b t
    | succ j =>
      have hj : j < t.length := by simpa using h
      have h1 := ih j hj
      simp only [List.getD_cons_succ, List.set_cons_succ]
      exact (List.Perm.swap b (t.getD j 0) (t.set j a)).trans
        ((h1.cons b).trans (List.Perm.swap a b t))

theorem swap_perm (l : List ℤ) (i r : ℕ) (hir : i ≤ r) (hr : r < l.length) :
    List.Perm ((l.set r (l.getD i 0)).set i (l.getD r 0)) l := by
  induction l generalizing i r with
  | nil => simp at hr
  | cons b t ih =>
    cases i with
    | zero =>
      cases r with
      | zero => simp
      | succ r =>
        have hr2 : r < t.length := by simpa using hr
        simpa using getD_cons_set_perm t r b hr2
    | succ i =>
      cases r with
      | zero => omega
      | succ r =>
        have hr2 : r < t.length := by simpa using hr
        have := ih i r (by omega) hr2
        simpa using this

theorem swapStep_perm (n : ℕ) (draws : ℕ → ℚ) (p : List ℤ) (i : ℕ)
    (hlen : p.length = n) (hi : i < n) (hd : 0 < draws i ∧ draws i < 1) :
    List.Perm (swapStep n draws p i) p := by
  have hr := randi_mem_range (i : ℤ) (n : ℤ) (draws i) (by exact_mod_cast hi) hd.1 hd.2
  unfold swapStep
  apply swap_perm
  · omega
  · omega

theorem foldl_swapStep_perm (n : ℕ) (draws : ℕ → ℚ)
    (hd : ∀ i, 0 < draws i ∧ draws i < 1) (k : ℕ) (hk : k ≤ n) (p : List ℤ)
    (hlen : p.length = n) :
    List.Perm ((List.range k).foldl (swapStep n draws) p) p := by
  induction k with
  | zero => simp
  | succ k ih =>
    have h1 := ih (by omega)
    rw [List.range_succ, List.foldl_append]
    simp only [List.foldl_cons, List.foldl_nil]
    exact (swapStep_perm n draws _ k (by rw [h1.length_eq, hlen]) (by omega) (hd k)).trans h1

/-! ### C1 -/

/-- C1: for `0 ≤ k ≤ n` and draws of `randf` in `(0,1)`, `randperm(n, k)` has length `k`,
pairwise distinct entries, each in `[0, n)`; for `k = n` it is a permutation of `0..n-1`. -/
theorem randperm_distinct_in_range (draws : ℕ → ℚ) (n : ℕ) (k : ℤ)
    (hk0 : 0 ≤ k) (hkn : k ≤ n) (hd : ∀ i, 0 < draws i ∧ draws i < 1) :
    ((randperm draws n k).length : ℤ) = k ∧
    (randperm draws n k).Nodup ∧
    (∀ x ∈ randperm draws n k, 0 ≤ x ∧ x < n) ∧
    (k = n → List.Perm (randperm draws n k) ((List.range n).map Int.ofNat)) := by
  obtain ⟨m, rfl⟩ := Int.eq_ofNat_of_zero_le hk0
  have hmn : m ≤ n := by exact_mod_cast hkn
  have hperm := foldl_swapStep_perm n draws hd m hmn ((List.range n).map Int.ofNat) (by simp)
  have hlen := hperm.length_eq
  simp only [List.length_map, List.length_range] at hlen
  have hnd : ((List.range n).map Int.ofNat).Nodup :=
    (List.nodup_range n).map (fun a b h => by simpa using h)
  have hres : randperm draws n m
      = ((List.range m).foldl (swapStep n draws) ((List.range n).map Int.ofNat)).take m := by
    unfold randperm resize
    have h1 : ¬ ((m : ℤ) < 0) := by omega
    have h2 : ¬ ((m : ℤ) > n) := by omega
    simp only [h1, h2, if_false, Int.toNat_ofNat, hlen]
    rw [Nat.sub_eq_zero_of_le hmn]
    simp
  rw [hres]
  refine ⟨?_, ?_, ?_, ?_⟩
  · simp [hlen, hmn]
  · exact (hperm.nodup_iff.mpr hnd).sublist (List.take_sublist _ _)
  · intro x hx
    have hx2 := hperm.mem_iff.mp (List.mem_of_mem_take hx)
    simp only [List.mem_map, List.mem_range] at hx2
    obtain ⟨a, ha, rfl⟩ := hx2
    constructor
    · exact Int.ofNat_nonneg a
    · exact Int.ofNat_lt.mpr ha
  · intro hkn2
    have hmn2 : m = n := by exact_mod_cast hkn2
    subst hmn2
    rw [List.take_of_length_le (by omega)]
    exact hperm

/-- Witness of C1 at `n = 3`, `k = 2` with every draw equal to `1/2`. -/
theorem randperm_distinct_in_range_witness :
    ((randperm (fun _ => 1/2) 3 2).length : ℤ) = 2 ∧
    (randperm (fun _ => 1/2) 3 2).Nodup ∧
    (∀ x ∈ randperm (fun _ => 1/2) 3 2, 0 ≤ x ∧ x < (3 : ℕ)) ∧
    ((2 : ℤ) = (3 : ℕ) → List.Perm (randperm (fun _ => 1/2) 3 2)
      ((List.range 3).map Int.ofNat)) :=
  randperm_distinct_in_range (fun _ => 1/2) 3 2 (by decide) (by decide)
    (fun _ => ⟨by norm_num, by norm_num⟩)

/-! ### C2: range of `randf` -/

theorem schrage_good (s : ℤ) (h : Good s) : Good (schrage s) := by
  obtain ⟨h1, h2⟩ := h
  have hk : Int.tdiv s 127773 = s / 127773 := Int.tdiv_eq_ediv (by omega) (by omega)
  simp only [schrage, IA, IM, IQ, IR, hk, Good]
  split_ifs <;> omega

theorem warm_fold_good (l : List ℕ) (st : GenState) (hs : Good st.RANDSEED)
    (hlen : st.iv.length = 32) :
    Good (l.foldl warmStep st).RANDSEED ∧ (l.foldl warmStep st).iv.length = 32 ∧
    (l.foldl warmStep st).iy = st.iy ∧
    ∀ idx, idx < 32 → (idx ∈ l ∨ Good (st.iv.getD idx 0)) →
      Good ((l.foldl warmStep st).iv.getD idx 0) := by
  induction l generalizing st with
  | nil => simpa [hlen] using hs
  | cons j l ih =>
    have hg := schrage_good _ hs
    have hlen2 : (warmStep st j).iv.length = 32 := by
      simp only [warmStep]; split_ifs <;> simp [hlen]
    obtain ⟨a, b, c, d⟩ := ih (warmStep st j) hg hlen2
    refine ⟨a, b, by simpa [warmStep] using c, ?_⟩
    intro idx hidx hor
    apply d idx hidx
    by_cases hl : idx ∈ l
    · exact Or.inl hl
    · right
      by_cases hj : (j : ℤ) < NTAB
      · simp only [warmStep, hj, if_true]
        by_cases hij : j = idx
        · subst hij
          rw [List.getD_eq_getElem _ _ (by simp [hlen, hidx]), List.getElem_set_self]
          exact hg
        · rw [List.getD_eq_getElem _ _ (by simp [hlen, hidx]), List.getElem_set_ne hij]
          rcases hor with h | h
          · simp only [List.mem_cons] at h
            rcases h with h | h
            · exact absurd h.symm hij
            · exact absurd h hl
          · rwa [List.getD_eq_getElem _ _ (by simp [hlen, hidx])] at h
      · simp only [warmStep, hj, if_false]
        rcases hor with h | h
        · simp only [List.mem_cons] at h
          rcases h with h | h
          · subst h; simp only [NTAB] at hj; omega
          · exact absurd h hl
        · exact h

theorem randfInit_inv_initial (seed : ℤ) (h : -2147483646 ≤ seed) :
    GenInv (randfInit (GenState.initial seed)) := by
  have hs : Good (if -seed < 1 then 1 else -seed) := by
    unfold Good; split_ifs <;> omega
  have hmem : ∀ idx, idx < 32 → idx ∈ (List.range 40).reverse := by
    intro idx hidx
    rw [List.mem_reverse, List.mem_range]; omega
  have hunf : randfInit (GenState.initial seed) =
      { (List.range 40).reverse.foldl warmStep
          { RANDSEED := if -seed < 1 then 1 else -seed, iy := 0, iv := List.replicate 32 0 } with
        iy := ((List.range 40).reverse.foldl warmStep
          { RANDSEED := if -seed < 1 then 1 else -seed, iy := 0,
            iv := List.replicate 32 0 }).iv.getD 0 0 } := by
    simp only [randfInit, GenState.initial, or_true, if_true]
  rw [hunf]
  generalize (List.range 40).reverse = l at hmem ⊢
  obtain ⟨a, b, _, d⟩ := warm_fold_good l
    { RANDSEED := if -seed < 1 then 1 else -seed, iy := 0, iv := List.replicate 32 0 } hs
    (by simp)
  exact ⟨a, d 0 (by omega) (Or.inl (hmem 0 (by omega))), b,
    fun idx hidx => d idx hidx (Or.inl (hmem idx hidx))⟩

theorem randfInit_inv (st : GenState) (h : GenInv st) : randfInit st = st := by
  obtain ⟨⟨h1, _⟩, ⟨h2, _⟩, _, _⟩ := h
  have : ¬ (st.RANDSEED ≤ 0 ∨ st.iy = 0) := by omega
  simp [randfInit, this]

theorem randf_of_inv (st0 : GenState) (h : GenInv (randfInit st0)) :
    ∃ v st2, randf st0 = some (v, st2) ∧ GenInv st2 ∧ 0 < v ∧ v ≤ 1 - 12 / 100000000 := by
  generalize hst : randfInit st0 = st at h
  obtain ⟨hseed, hiy, hlen, hiv⟩ := h
  have hnd : (NDIV : ℚ) = 67108864 := by
    have : NDIV = 67108864 := by decide
    rw [this]; norm_num
  have hq0 : (0 : ℚ) ≤ (st.iy : ℚ) / (NDIV : ℚ) := by
    rw [hnd]
    have : (0 : ℚ) ≤ (st.iy : ℚ) := by exact_mod_cast (by have := hiy.1; omega : (0 : ℤ) ≤ st.iy)
    positivity
  have hj0 : 0 ≤ truncToInt ((st.iy : ℚ) / (NDIV : ℚ)) := by
    rw [truncToInt_of_nonneg hq0]; exact Int.floor_nonneg.mpr hq0
  have hj1 : truncToInt ((st.iy : ℚ) / (NDIV : ℚ)) < 32 := by
    rw [truncToInt_of_nonneg hq0, Int.floor_lt, hnd, div_lt_iff₀ (by norm_num)]
    have : (st.iy : ℚ) ≤ 2147483646 := by exact_mod_cast hiy.2
    push_cast
    linarith
  have hjn : (truncToInt ((st.iy : ℚ) / (NDIV : ℚ))).toNat < 32 := by omega
  have hgy := hiv _ hjn
  have hpos : (0 : ℚ) < AM * ((st.iv.getD (truncToInt ((st.iy : ℚ) / (NDIV : ℚ))).toNat 0 : ℤ) : ℚ) := by
    have : (0 : ℚ) < ((st.iv.getD (truncToInt ((st.iy : ℚ) / (NDIV : ℚ))).toNat 0 : ℤ) : ℚ) := by
      exact_mod_cast (by have := hgy.1; omega :
        (0 : ℤ) < st.iv.getD (truncToInt ((st.iy : ℚ) / (NDIV : ℚ))).toNat 0)
    have hA : (0 : ℚ) < AM := by norm_num [AM, IM]
    exact mul_pos hA this
  simp only [randf, hst, NTAB, hj0, hj1, and_self, if_true]
  refine ⟨_, _, rfl, ?_, ?_, ?_⟩
  · refine ⟨schrage_good _ hseed, hgy, by simp [hlen], ?_⟩
    intro idx hidx
    by_cases hij : (truncToInt ((st.iy : ℚ) / (NDIV : ℚ))).toNat = idx
    · rw [List.getD_eq_getElem _ _ (by simp [hlen, hidx])]
      simp only [hij, List.getElem_set_self]
      exact schrage_good _ hseed
    · rw [List.getD_eq_getElem _ _ (by simp [hlen, hidx]), List.getElem_set_ne hij]
      have := hiv idx hidx
      rwa [List.getD_eq_getElem _ _ (by simp [hlen, hidx])] at this
  · split_ifs
    · norm_num [RNMX, EPS]
    · exact hpos
  · split_ifs with hc
    · norm_num [RNMX, EPS]
    · have : RNMX = 1 - 12 / 100000000 := by norm_num [RNMX, EPS]
      rw [← this]; exact not_lt.mp hc

theorem randfNth_of_inv (n : ℕ) (st : GenState) (h : GenInv (randfInit st)) :
    ∃ v st2, randfNth st n = some (v, st2) ∧ GenInv st2 ∧ 0 < v ∧ v ≤ 1 - 12 / 100000000 := by
  induction n generalizing st with
  | zero => exact randf_of_inv st h
  | succ n ih =>
    obtain ⟨v1, st1, h1, hinv1, _⟩ := randf_of_inv st h
    have h2 : GenInv (randfInit st1) := by rw [randfInit_inv st1 hinv1]; exact hinv1
    obtain ⟨v, st2, h3, h4⟩ := ih st1 h2
    exact ⟨v, st2, by simp [randfNth, h1, h3], h4⟩

/-- Limit of the seed range of `randf_range_of_seed`: started at `RANDSEED = -(2^31-1)`, a
value the file never gives its static `RANDSEED`, the seed would become `2^31-1`, the
Schrage update would map it to `0`, and the first call of `randf` would return `0`. -/
theorem randf_zero_at_modulus_seed :
    ∃ v st, randfNth (GenState.initial (-2147483647)) 0 = some (v, st) ∧ ¬ (0 < v) := by
  have hinit : randfInit (GenState.initial (-2147483647))
      = { RANDSEED := 0, iy := 0, iv := List.replicate 32 0 } := by
    set_option maxRecDepth 100000 in decide
  refine ⟨0, { RANDSEED := 0, iy := 0, iv := List.replicate 32 0 }, ?_, lt_irrefl 0⟩
  have hs : schrage 0 = 0 := by decide
  have hR : ¬ ((0 : ℚ) > RNMX) := by norm_num [RNMX, EPS]
  simp only [randfNth, randf, hinit, hs]
  norm_num [truncToInt, NTAB, AM, hR]

theorem randf_range_of_seed (seed : ℤ) (h : -2147483646 ≤ seed) (n : ℕ) :
    ∃ v st, randfNth (GenState.initial seed) n = some (v, st) ∧
      0 < v ∧ v ≤ 1 - 12 / 100000000 := by
  obtain ⟨v, st, h1, _, h2⟩ := randfNth_of_inv n (GenState.initial seed)
    (randfInit_inv_initial seed h)
  exact ⟨v, st, h1, h2⟩

/-- C2: from the state in which the program starts (`static long RANDSEED = -1`, the only
initial value the file gives `RANDSEED`, which nothing but `randf` writes), and more
generally from every initial value `RANDSEED ≥ -(2^31-2)`, call number `n` of `randf`
returns a value `v` (`iy/(2^31-1)` clamped at `1 - 1.2e-7`, in exact arithmetic) with
`0 < v ≤ 1 - 1.2e-7`, for every `n`. -/
theorem randf_range (n : ℕ) :
    (∃ v st, randfNth GenState.start n = some (v, st) ∧ 0 < v ∧ v ≤ 1 - 12 / 100000000) ∧
    (∀ seed : ℤ, -2147483646 ≤ seed →
      ∃ v st, randfNth (GenState.initial seed) n = some (v, st) ∧
        0 < v ∧ v ≤ 1 - 12 / 100000000) :=
  ⟨randf_range_of_seed (-1) (by decide) n, fun seed h => randf_range_of_seed seed h n⟩

/-- Witness of C2: third call, from the program start and from the seed `-12345`. -/
theorem randf_range_witness :
    (-2147483646 : ℤ) ≤ -12345 ∧
    (∃ v st, randfNth GenState.start 2 = some (v, st) ∧ 0 < v ∧ v ≤ 1 - 12 / 100000000) ∧
    (∃ v st, randfNth (GenState.initial (-12345)) 2 = some (v, st) ∧
      0 < v ∧ v ≤ 1 - 12 / 100000000) :=
  ⟨by decide, (randf_range 2).1, (randf_range 2).2 (-12345) (by decide)⟩

/-! ### C3, C4: `normalize` -/

theorem sum_map_mul_const (l : List ℚ) (c : ℚ) : (l.map (fun v => v * c)).sum = l.sum * c := by
  induction l with
  | nil => simp
  | cons a t ih => simp [ih, add_mul]

theorem normalize_eq_of_pos (r : RF) (hs : 0 < r._pdf.sum) :
    r.normalize
      = ({ r with _cdfCount := 0, _pdf := r._pdf.map (fun v => v * (1 / r._pdf.sum)) }, true) := by
  simp [RF.normalize, hs]

theorem normalize_sum_of_pos (r : RF) (hs : 0 < r._pdf.sum) : r.normalize.1._pdf.sum = 1 := by
  rw [normalize_eq_of_pos r hs]
  show (r._pdf.map (fun v => v * (1 / r._pdf.sum))).sum = 1
  rw [sum_map_mul_const]
  field_simp

theorem normalize_nonneg_of_pos (r : RF) (hs : 0 < r._pdf.sum) (h0 : ∀ v ∈ r._pdf, 0 ≤ v) :
    ∀ v ∈ r.normalize.1._pdf, 0 ≤ v := by
  rw [normalize_eq_of_pos r hs]
  intro v hv
  simp only [List.mem_map] at hv
  obtain ⟨u, hu, rfl⟩ := hv
  exact mul_nonneg (h0 u hu) (by positivity)

theorem normalize_cnt (r : RF) : r.normalize.1._cnt = r._cnt := by
  simp only [RF.normalize]
  split_ifs <;> rfl

theorem normalize_cdfCount (r : RF) : r.normalize.1._cdfCount = 0 := by
  simp only [RF.normalize]
  split_ifs <;> rfl

theorem normalize_length (r : RF) : r.normalize.1._pdf.length = r._pdf.length := by
  simp only [RF.normalize]
  split_ifs <;> simp

/-- C3: when the bins of `r` sum to `s > 0`, `normalize()` returns true, bin `i` becomes
`old(i)/s`, the new bins sum to `1`, and the ratios between bins are unchanged. -/
theorem normalize_pos (r : RF) (hs : 0 < r._pdf.sum) :
    r.normalize.2 = true ∧
    r.normalize.1._pdf.length = r._pdf.length ∧
    (∀ i, i < r._pdf.length →
      r.normalize.1._pdf.getD i 0 = r._pdf.getD i 0 / r._pdf.sum) ∧
    r.normalize.1._pdf.sum = 1 ∧
    (∀ i j, r.normalize.1._pdf.getD i 0 * r._pdf.getD j 0
      = r.normalize.1._pdf.getD j 0 * r._pdf.getD i 0) := by
  have hne : r._pdf.sum ≠ 0 := ne_of_gt hs
  have hn := normalize_eq_of_pos r hs
  have hget : ∀ i, (r._pdf.map (fun v => v * (1 / r._pdf.sum))).getD i 0
      = r._pdf.getD i 0 / r._pdf.sum := by
    intro i
    by_cases hi : i < r._pdf.length
    · rw [List.getD_eq_getElem _ _ (by simpa using hi), List.getD_eq_getElem _ _ hi]
      simp [div_eq_mul_inv]
    · rw [List.getD_eq_default _ _ (by simpa using hi), List.getD_eq_default _ _ (by simpa using hi)]
      simp
  rw [hn]
  refine ⟨rfl, by simp, fun i _ => hget i, ?_, ?_⟩
  · show (r._pdf.map (fun v => v * (1 / r._pdf.sum))).sum = 1
    rw [sum_map_mul_const]
    field_simp
  · intro i j
    show (r._pdf.map (fun v => v * (1 / r._pdf.sum))).getD i 0 * _
      = (r._pdf.map (fun v => v * (1 / r._pdf.sum))).getD j 0 * _
    rw [hget i, hget j]
    ring

/-- Witness of C3 on the bins `[1, 3]`. -/
theorem normalize_pos_witness :
    (0 : ℚ) < ([1, 3] : List ℚ).sum ∧
    (RF.normalize ⟨[1, 3], 2, 0, 1, 1, 5, [], []⟩).2 = true ∧
    (RF.normalize ⟨[1, 3], 2, 0, 1, 1, 5, [], []⟩).1._pdf = [1 / 4, 3 / 4] :=
  ⟨by norm_num, (normalize_pos ⟨[1, 3], 2, 0, 1, 1, 5, [], []⟩ (by norm_num)).1, by decide!⟩

/-- C4: when the bins of `r` sum to a value `≤ 0`, `normalize()` returns false and every
bin keeps its value. -/
theorem normalize_nonpos (r : RF) (hs : r._pdf.sum ≤ 0) :
    r.normalize.2 = false ∧ r.normalize.1._pdf = r._pdf := by
  have : ¬ (r._pdf.sum > 0) := not_lt.mpr hs
  simp [RF.normalize, this]

/-- Witness of C4 on an all-zero distribution. -/
theorem normalize_nonpos_witness :
    ([0, 0, 0] : List ℚ).sum ≤ 0 ∧
    (RF.normalize ⟨[0, 0, 0], 3, 0, 1, 1, 0, [], []⟩).2 = false ∧
    (RF.normalize ⟨[0, 0, 0], 3, 0, 1, 1, 0, [], []⟩).1._pdf = [0, 0, 0] :=
  ⟨by norm_num, normalize_nonpos ⟨[0, 0, 0], 3, 0, 1, 1, 0, [], []⟩ (by norm_num)⟩

/-! ### C5: analytic initializers -/

theorem forLoop_inv {σ : Type} (Inv : ℕ → σ → Prop) (n : ℕ) (body : σ → ℕ → Option σ) (s : σ)
    (h0 : Inv 0 s)
    (hstep : ∀ i t, i < n → Inv i t → ∃ t2, body t i = some t2 ∧ Inv (i + 1) t2) :
    ∃ t, forLoop n body s = some t ∧ Inv n t := by
  have key : ∀ k, k ≤ n → ∃ t, forLoop k body s = some t ∧ Inv k t := by
    intro k
    induction k with
    | zero => intro _; exact ⟨s, by simp [forLoop], h0⟩
    | succ k ih =>
      intro hk
      obtain ⟨t, ht, hinv⟩ := ih (by omega)
      obtain ⟨t2, ht2, hinv2⟩ := hstep k t (by omega) hinv
      refine ⟨t2, ?_, hinv2⟩
      unfold forLoop at ht ⊢
      rw [List.range_succ, List.foldlM_append, ht]
      simp [ht2]
  exact key n le_rfl

theorem truncToInt_pos {x : ℚ} (h : 1 ≤ x) : 0 < truncToInt x := by
  rw [truncToInt_of_nonneg (by linarith)]
  exact Int.floor_pos.mpr h

theorem init_eq (r : RF) (minV mavV w : ℚ) (h1 : minV ≤ mavV)
    (hc : 0 < truncToInt ((mavV - minV) * (1 / w) + 101 / 100)) :
    r.init minV mavV w = some
      { r with _minV := minV, _w := w, _wInv := 1 / w,
               _cnt := truncToInt ((mavV - minV) * (1 / w) + 101 / 100),
               _pdf := List.replicate (truncToInt ((mavV - minV) * (1 / w) + 101 / 100)).toNat 0,
               _cdfCount := 0 } := by
  have hc2 : ¬ (truncToInt ((mavV - minV) * (1 / w) + 101 / 100) ≤ 0) := by omega
  simp only [RF.init, RF.setAllBins, h1, hc, hc2, gt_iff_lt, not_true_eq_false, if_false,
    List.map_replicate]

theorem init_cnt_pos (minV mavV w : ℚ) (h1 : minV ≤ mavV) (hw : 0 < w) :
    0 < truncToInt ((mavV - minV) * (1 / w) + 101 / 100) := by
  apply truncToInt_pos
  have : 0 ≤ (mavV - minV) * (1 / w) := mul_nonneg (by linarith) (by positivity)
  linarith

theorem setAt_natCast {α : Type} (m : List α) (i : ℕ) (v : α) (h : i < m.length) :
    setAt m (i : ℤ) v = some (m.set i v) := by
  simp [setAt, h]

theorem at?_natCast {α : Type} (m : List α) (i : ℕ) : at? m (i : ℤ) = m[i]? := by
  simp [at?]

/-- Cache reset with asserts active: in every state of `r` and for every argument, once
`init` (the build where a failing assert aborts), `setAllBins`, `setOneBin`, `addToBin`,
`normalize`, `gaussSmooth`, `smooth` or `readFrmStrm` returns, `_cdfCount = 0`. -/
theorem mutators_reset_cdfCount (SetGaussian : ℚ → Kernel)
    (ConvHor : List ℚ → Kernel → List ℚ) (r : RF) (x p minV mavV w sigma : ℚ)
    (kernel1 : Kernel) (pdf : List ℚ) (cnt : ℤ) (minV2 w2 wInv2 : ℚ) :
    (∀ r2, r.init minV mavV w = some r2 → r2._cdfCount = 0) ∧
    (r.setAllBins p)._cdfCount = 0 ∧
    (∀ r2, r.setOneBin x p = some r2 → r2._cdfCount = 0) ∧
    (∀ r2, r.addToBin x p = some r2 → r2._cdfCount = 0) ∧
    r.normalize.1._cdfCount = 0 ∧
    (∀ r2, r.gaussSmooth SetGaussian ConvHor sigma = some r2 → r2._cdfCount = 0) ∧
    (∀ r2, r.smooth ConvHor kernel1 = some r2 → r2._cdfCount = 0) ∧
    (r.readFrmStrm pdf cnt minV2 w2 wInv2)._cdfCount = 0 := by
  refine ⟨?_, rfl, ?_, ?_, normalize_cdfCount r, ?_, ?_, rfl⟩
  · intro r2 h
    simp only [RF.init] at h
    split_ifs at h with h1 h2 h3
    · omega
    · cases h; rfl
  · intro r2 h
    simp only [RF.setOneBin] at h
    split_ifs at h
    · simp only [Option.map_eq_some'] at h
      obtain ⟨_, _, rfl⟩ := h
      rfl
    · cases h; rfl
  · intro r2 h
    simp only [RF.addToBin] at h
    split_ifs at h
    · simp only [Option.bind_eq_some, Option.map_eq_some'] at h
      obtain ⟨_, _, _, _, rfl⟩ := h
      rfl
    · cases h; rfl
  · intro r2 h
    simp only [RF.gaussSmooth] at h
    split_ifs at h
    cases h
    exact normalize_cdfCount _
  · intro r2 h
    simp only [RF.smooth] at h
    split_ifs at h
    cases h
    exact normalize_cdfCount _

/-- Instance of `mutators_reset_cdfCount`: `setOneBin(0, 1/3)` on an `RF` whose cache is
built returns and leaves `_cdfCount = 0`. -/
theorem mutators_reset_cdfCount_witness :
    RF.built._cdfCount = 4 ∧
    ∃ r2, RF.built.setOneBin 0 (1 / 3) = some r2 ∧ r2._cdfCount = 0 :=
  ⟨rfl, ⟨[1 / 3, 1 / 2], 2, 0, 1, 1, 0, [0, 0, 1, 1], [1 / 2, 1]⟩, by decide!,
    (mutators_reset_cdfCount (fun _ => ⟨1, [1]⟩) (fun l _ => l) RF.built 0 (1 / 3) 0 1 1 1
      ⟨1, [1]⟩ [] 0 0 0 0).2.2.1 _ (by decide!)⟩

/-! ### C7: frame of the point mutators -/

theorem at?_set_self {α : Type} (l : List α) (i : ℤ) (v : α) (h0 : 0 ≤ i)
    (h1 : i.toNat < l.length) : at? (l.set i.toNat v) i = some v := by
  simp [at?, h0, h1]

theorem at?_set_ne {α : Type} (l : List α) (i j : ℤ) (v : α) (h0 : 0 ≤ i) (hij : j ≠ i) :
    at? (l.set i.toNat v) j = at? l j := by
  unfold at?
  split_ifs with hj
  · have : i.toNat ≠ j.toNat := by omega
    simp [List.getElem?_set_ne this]
  · rfl

theorem at?_eq_some_getD (l : List ℚ) (i : ℤ) (h0 : 0 ≤ i) (h1 : i.toNat < l.length) :
    at? l i = some (l.getD i.toNat 0) := by
  simp [at?, h0, List.getD_eq_getElem _ _ h1, List.getElem?_eq_getElem h1]

theorem inRange_iff (r : RF) (i : ℤ) : r.inRange i = true ↔ 0 ≤ i ∧ i < r._cnt := by
  simp [RF.inRange]

/-- C7: on an `RF` whose container holds `_cnt` bins, `setOneBin(x, p)` and `addToBin(x, p)`
with `getIndex(x)` out of range leave every bin (hence the total mass) unchanged; with
`getIndex(x)` in range they change that bin only, to `p` respectively `old + p`. -/
theorem point_mutators_frame (r : RF) (x p : ℚ) (hs : r.Sized) :
    (r.inRange (r.getIndex x) = false →
      (∃ r2, r.setOneBin x p = some r2 ∧ r2._pdf = r._pdf ∧ r2._pdf.sum = r._pdf.sum) ∧
      (∃ r2, r.addToBin x p = some r2 ∧ r2._pdf = r._pdf ∧ r2._pdf.sum = r._pdf.sum)) ∧
    (r.inRange (r.getIndex x) = true →
      (∃ r2, r.setOneBin x p = some r2 ∧ r2._pdf.length = r._pdf.length ∧
        at? r2._pdf (r.getIndex x) = some p ∧
        ∀ j, j ≠ r.getIndex x → at? r2._pdf j = at? r._pdf j) ∧
      (∃ r2 old, at? r._pdf (r.getIndex x) = some old ∧
        r.addToBin x p = some r2 ∧ r2._pdf.length = r._pdf.length ∧
        at? r2._pdf (r.getIndex x) = some (old + p) ∧
        ∀ j, j ≠ r.getIndex x → at? r2._pdf j = at? r._pdf j)) := by
  constructor
  · intro hout
    constructor
    · exact ⟨{ r with _cdfCount := 0 }, by simp [RF.setOneBin, hout], rfl, rfl⟩
    · exact ⟨{ r with _cdfCount := 0 }, by simp [RF.addToBin, hout], rfl, rfl⟩
  · intro hin
    obtain ⟨h0, h1⟩ := (inRange_iff r _).mp hin
    have hlt : (r.getIndex x).toNat < r._pdf.length := by
      unfold RF.Sized at hs; omega
    have hset : ∀ v, setAt r._pdf (r.getIndex x) v = some (r._pdf.set (r.getIndex x).toNat v) := by
      intro v; simp [setAt, h0, hlt]
    constructor
    · refine ⟨{ r with _pdf := r._pdf.set (r.getIndex x).toNat p, _cdfCount := 0 }, ?_, ?_, ?_, ?_⟩
      · simp [RF.setOneBin, hin, hset]
      · simp
      · exact at?_set_self _ _ _ h0 hlt
      · intro j hj; exact at?_set_ne _ _ _ _ h0 hj
    · refine ⟨{ r with
          _pdf := (r._pdf.set (r.getIndex x).toNat (r._pdf.getD (r.getIndex x).toNat 0 + p)),
          _cdfCount := 0 },
        r._pdf.getD (r.getIndex x).toNat 0, at?_eq_some_getD _ _ h0 hlt, ?_, ?_, ?_, ?_⟩
      · simp [RF.addToBin, hin, hset, at?_eq_some_getD _ _ h0 hlt]
      · simp
      · exact at?_set_self _ _ _ h0 hlt
      · intro j hj; exact at?_set_ne _ _ _ _ h0 hj

/-- Witness of C7 on the bins `[1/2, 1/2]` over `[0, 1]`, at the out-of-range `x = 5`. -/
theorem point_mutators_frame_witness :
    RF.built.Sized ∧ RF.built.inRange (RF.built.getIndex 5) = false ∧
    (∃ r2, RF.built.setOneBin 5 3 = some r2 ∧ r2._pdf = RF.built._pdf ∧
      r2._pdf.sum = RF.built._pdf.sum) ∧
    (∃ r2, RF.built.addToBin 5 3 = some r2 ∧ r2._pdf = RF.built._pdf ∧
      r2._pdf.sum = RF.built._pdf.sum) :=
  ⟨by decide!, by decide!,
    (point_mutators_frame RF.built 5 3 (by decide!)).1 (by decide!)⟩

/-! ### C9, C10: `cdf` at the ends of the domain -/

theorem cdf_sum_loop (pdf : List ℚ) (k : ℕ) (hk : k ≤ pdf.length) :
    forLoop k (fun cum j => (at? pdf j).map (fun v => cum + v)) 0 = some (pdf.take k).sum := by
  obtain ⟨t, ht, hinv⟩ := forLoop_inv (fun i (cum : ℚ) => cum = (pdf.take i).sum) k
    (fun cum j => (at? pdf j).map (fun v => cum + v)) 0 (by simp)
    (by
      intro i t hi hinv
      refine ⟨t + pdf[i], ?_, ?_⟩
      · simp only [at?_natCast, List.getElem?_eq_getElem (show i < pdf.length by omega),
          Option.map_some']
      · show t + pdf[i] = (List.take (i + 1) pdf).sum
        rw [List.sum_take_succ pdf i (by omega), hinv])
  rw [ht, hinv]

/-- The summation path of `cdf`: with no cache built, a positive inverse bin width and at
least one bin, `cdf(minV - ε)` is `0` for every `ε > 0`. -/
theorem cdf_below_min_no_cache (r : RF) (eps : ℚ) (heps : 0 < eps) (hw : 0 < r._wInv)
    (hcnt : 0 < r._cnt) (hc : r._cdfCount ≤ 0) : r.cdf (r._minV - eps) = some 0 := by
  have hidx : r.getIndex (r._minV - eps) < 0 := by
    unfold RF.getIndex
    rw [Int.floor_lt]
    have : (r._minV - eps - r._minV) * r._wInv = -(eps * r._wInv) := by ring
    rw [this]
    have := mul_pos heps hw
    push_cast
    linarith
  have h1 : ¬ (r.getIndex (r._minV - eps) ≥ r.getCount) := by
    unfold RF.getCount; omega
  have h2 : ¬ (r._cdfCount > 0) := by omega
  have h3 : (r.getIndex (r._minV - eps) + 1).toNat = 0 := by omega
  simp only [RF.cdf, h1, h2, if_false, h3]
  rfl

/-- C9 fails on the code: `setUniformInt(0,1)` then `setCdf(2)` gives an `RF` with a built
cache, and there `cdf(minV - 1)` has bin index `-1`, is not caught by the upper-bound
test, and reads `_cdf(-1)`, outside the container. -/
theorem cdf_below_min_built_cache :
    (RF.empty.setUniformInt 0 1).bind (fun r => r.setCdf 2) = some (RF.built, true) ∧
    RF.built.getIndex (RF.built._minV - 1) = -1 ∧
    RF.built.cdf (RF.built._minV - 1) = none := by
  refine ⟨by decide!, by decide!, by decide!⟩

/-- C10, as stated, fails: after `setUniform(0, 1.995, 1)` there are three bins of weight
`1/3`, `maxV = 1.995` lies in the second, and `cdf(maxV) = 2/3`. -/
theorem cdf_max_not_one :
    (0 : ℚ) ≤ 399 / 200 ∧ (0 : ℚ) < 1 ∧
    ∃ r, RF.empty.setUniform 0 (399 / 200) 1 = some r ∧ r._pdf.sum = 1 ∧
      (∀ v ∈ r._pdf, 0 ≤ v) ∧ r.cdf (399 / 200) = some (2 / 3) ∧ (2 / 3 : ℚ) ≠ 1 := by
  refine ⟨by norm_num, by norm_num,
    ⟨[1 / 3, 1 / 3, 1 / 3], 3, 0, 1, 1, 0, [], []⟩, by decide!, by decide!, by decide!,
    by decide!, by norm_num⟩

/-- C10 (amended): after `init(minV, maxV, w)` with `minV ≤ maxV`, `w > 0` and the
fractional part of `(maxV - minV) * (1/w)` below `0.99`, once the bins sum to `1`
the call `cdf(maxV)` returns `1`: the bin containing `maxV` is the last bin. -/
theorem cdf_max_eq_one (r0 r1 : RF) (minV maxV w : ℚ) (bins : List ℚ)
    (h1 : minV ≤ maxV) (hw : 0 < w)
    (hfr : Int.fract ((maxV - minV) * (1 / w)) < 99 / 100)
    (hinit : r0.init minV maxV w = some r1)
    (hlen : (bins.length : ℤ) = r1._cnt) (hsum : bins.sum = 1) :
    ({ r1 with _pdf := bins } : RF).getIndex maxV = r1._cnt - 1 ∧
    ({ r1 with _pdf := bins } : RF).cdf maxV = some 1 := by
  have hc := init_cnt_pos minV maxV w h1 hw
  rw [init_eq r0 minV maxV w h1 hc] at hinit
  have hq0 : 0 ≤ (maxV - minV) * (1 / w) := mul_nonneg (by linarith) (by positivity)
  have hfl : truncToInt ((maxV - minV) * (1 / w) + 101 / 100)
      = ⌊(maxV - minV) * (1 / w)⌋ + 1 := by
    rw [truncToInt_of_nonneg (by linarith), Int.floor_eq_iff]
    have hf0 := Int.fract_nonneg ((maxV - minV) * (1 / w))
    have hff := Int.floor_add_fract ((maxV - minV) * (1 / w))
    push_cast
    constructor <;> linarith
  have hr : r1 = _ := (Option.some.inj hinit).symm
  have hm : r1._minV = minV := by rw [hr]
  have hwi : r1._wInv = 1 / w := by rw [hr]
  have hcn : r1._cnt = truncToInt ((maxV - minV) * (1 / w) + 101 / 100) := by rw [hr]
  have hcc : r1._cdfCount = 0 := by rw [hr]
  have hidx : ⌊(maxV - r1._minV) * r1._wInv⌋ = r1._cnt - 1 := by
    rw [hcn, hfl, hm, hwi]; ring
  refine ⟨hidx, ?_⟩
  have hge : ¬ (r1._cnt - 1 ≥ r1._cnt) := by omega
  have hn : (r1._cnt - 1 + 1).toNat = bins.length := by omega
  simp only [RF.cdf, RF.getIndex, hidx, RF.getCount, hge, if_false, gt_iff_lt, hcc, lt_irrefl, hn]
  rw [cdf_sum_loop bins bins.length le_rfl, List.take_length, hsum]

/-- Witness of C10 (amended): `init(0, 1, 1/2)` and the bins `[1/3, 1/3, 1/3]`. -/
theorem cdf_max_eq_one_witness :
    ((0 : ℚ) ≤ 1 ∧ (0 : ℚ) < 1 / 2 ∧ Int.fract (((1 : ℚ) - 0) * (1 / (1 / 2))) < 99 / 100 ∧
      RF.empty.init 0 1 (1 / 2) = some RF.initHalf) ∧
    ({ RF.initHalf with _pdf := [1 / 3, 1 / 3, 1 / 3] } : RF).getIndex 1 = RF.initHalf._cnt - 1 ∧
    ({ RF.initHalf with _pdf := [1 / 3, 1 / 3, 1 / 3] } : RF).cdf 1 = some 1 :=
  ⟨⟨by norm_num, by norm_num, by norm_num, by decide!⟩,
   cdf_max_eq_one RF.empty RF.initHalf 0 1 (1 / 2)
    [1 / 3, 1 / 3, 1 / 3] (by norm_num) (by norm_num) (by norm_num) (by decide!) (by decide!)
    (by norm_num)⟩

/-! ### C8: the lookup table of `setCdf` -/

theorem forLoop_inv_of_some {σ : Type} (Inv : ℕ → σ → Prop) (n : ℕ) (body : σ → ℕ → Option σ)
    (s t : σ) (h : forLoop n body s = some t) (h0 : Inv 0 s)
    (hstep : ∀ i u u2, i < n → Inv i u → body u i = some u2 → Inv (i + 1) u2) : Inv n t := by
  have key : ∀ k, k ≤ n → ∀ u, forLoop k body s = some u → Inv k u := by
    intro k
    induction k with
    | zero =>
      intro _ u hu
      simp only [forLoop, List.range_zero, List.foldlM_nil] at hu
      cases hu
      exact h0
    | succ k ih =>
      intro hk u hu
      unfold forLoop at hu ih
      rw [List.range_succ, List.foldlM_append] at hu
      cases hmid : List.foldlM body s (List.range k) with
      | none => rw [hmid] at hu; simp at hu
      | some v =>
        rw [hmid] at hu
        have hb : body v k = some u := by simpa using hu
        exact hstep k v u (by omega) (ih (by omega) v hmid) hb
  exact key n le_rfl t h

theorem fillWhile_spec (cumi del c0 : ℚ) (i : ℤ) :
    ∀ (room : ℕ) (tbl : List ℤ) (j : ℕ) (cum : ℚ) (tbl2 : List ℤ) (j2 : ℕ) (cum2 : ℚ),
      room = tbl.length - j → j ≤ tbl.length → cum = c0 + (j : ℚ) * del →
      fillWhile cumi del i room (tbl, j, cum) = some (tbl2, j2, cum2) →
      tbl2.length = tbl.length ∧ j ≤ j2 ∧ j2 ≤ tbl.length ∧ cum2 = c0 + (j2 : ℚ) * del ∧
      cumi ≤ cum2 ∧ (∀ m, m < j → tbl2[m]? = tbl[m]?) ∧
      (∀ m, j ≤ m → m < j2 → tbl2[m]? = some i ∧ c0 + (m : ℚ) * del < cumi) := by
  intro room
  induction room with
  | zero =>
    intro tbl j cum tbl2 j2 cum2 hroom hj hcum h
    rw [fillWhile] at h
    split_ifs at h with hlt
    cases h
    exact ⟨rfl, le_rfl, hj, hcum, not_lt.mp hlt, fun _ _ => rfl, fun m h1 h2 => by omega⟩
  | succ room ih =>
    intro tbl j cum tbl2 j2 cum2 hroom hj hcum h
    rw [fillWhile] at h
    split_ifs at h with hlt
    · have hjl : j < tbl.length := by omega
      obtain ⟨a, b, c, d, e, f, g⟩ := ih (tbl.set j i) (j + 1) (cum + del) tbl2 j2 cum2
        (by simp only [List.length_set]; omega) (by simp only [List.length_set]; omega)
        (by rw [hcum]; push_cast; ring) h
      simp only [List.length_set] at a c
      refine ⟨a, by omega, c, d, e, ?_, ?_⟩
      · intro m hm
        rw [f m (by omega), List.getElem?_set_ne (by omega)]
      · intro m hm1 hm2
        by_cases hmj : m = j
        · subst hmj
          refine ⟨?_, by rw [← hcum]; exact hlt⟩
          rw [f m (by omega), List.getElem?_set_self hjl]
        · exact g m (by omega) hm2
    · cases h
      exact ⟨rfl, le_rfl, hj, hcum, not_lt.mp hlt, fun _ _ => rfl, fun m h1 h2 => by omega⟩

theorem fillStep_inv (pdf : List ℚ) (del c0 : ℚ) (hdel : 0 ≤ del) (len i : ℕ)
    (u u2 : (List ℤ × ℕ × ℚ) × ℚ) (hinv : FillInv pdf del c0 len i u)
    (h : fillStep pdf del u i = some u2) : FillInv pdf del c0 len (i + 1) u2 := by
  obtain ⟨⟨tbl, j, cum⟩, cumi⟩ := u
  obtain ⟨hlen, hj, hcum, hi, hcumi, hprev, hent⟩ := hinv
  simp only at hlen hj hcum hcumi hprev hent
  simp only [fillStep, Option.bind_eq_some, Option.map_eq_some'] at h
  obtain ⟨v, hv, ⟨tbl2, j2, cum2⟩, hw, rfl⟩ := h
  rw [at?_natCast] at hv
  have hil : i < pdf.length := by
    by_contra hc
    rw [List.getElem?_eq_none (by omega)] at hv
    cases hv
  rw [List.getElem?_eq_getElem hil] at hv
  cases hv
  obtain ⟨a, b, c, d, e, f, g⟩ := fillWhile_spec (cumi + pdf[i]) del c0 (i : ℤ)
    (tbl.length - j) tbl j cum tbl2 j2 cum2 rfl (by omega) hcum hw
  have hsum : cumi + pdf[i] = (pdf.take (i + 1)).sum := by
    rw [List.sum_take_succ pdf i hil, hcumi]
  have hmono : cum ≤ cum2 := by
    rw [hcum, d]
    have : (j : ℚ) ≤ (j2 : ℚ) := by exact_mod_cast b
    nlinarith
  refine ⟨by show tbl2.length = len; rw [a, hlen], by show j2 ≤ len; omega, d, hil, hsum,
    ?_, ?_⟩
  · intro k hk
    show (pdf.take (k + 1)).sum ≤ cum2
    by_cases hki : k = i
    · subst hki; rw [← hsum]; exact e
    · exact le_trans (hprev k (by omega)) hmono
  · intro m hm
    show ∃ b : ℕ, tbl2[m]? = some (b : ℤ) ∧ IsFirstExceed pdf (c0 + (m : ℚ) * del) b
    by_cases hmj : m < j
    · obtain ⟨b0, hb0, hfe⟩ := hent m hmj
      exact ⟨b0, by rw [f m hmj, hb0], hfe⟩
    · obtain ⟨g1, g2⟩ := g m (by omega) hm
      refine ⟨i, g1, hil, by rw [← hsum]; exact g2, ?_⟩
      intro k hk
      have h1 := hprev k hk
      have : (j : ℚ) ≤ (m : ℚ) := by exact_mod_cast (by omega : j ≤ m)
      rw [hcum] at h1
      nlinarith

theorem fillLookup_entries (r : RF) (tbl : List ℤ) (j : ℕ) (cum : ℚ) (hN : 0 < r._cdfCount)
    (h : r.fillLookup = some (tbl, j, cum)) :
    ∀ m, m < j → ∃ b : ℕ, tbl[m]? = some (b : ℤ) ∧
      IsFirstExceed r._pdf (((m : ℚ) + 1 / 10) / (r._cdfCount : ℚ)) b := by
  simp only [RF.fillLookup, Option.map_eq_some'] at h
  obtain ⟨⟨t, cumi⟩, hloop, hfst⟩ := h
  simp only at hfst
  subst hfst
  have hNq : (0 : ℚ) < (r._cdfCount : ℚ) := by exact_mod_cast hN
  have hinv := forLoop_inv_of_some
    (FillInv r._pdf (1 / (r._cdfCount : ℚ)) (1 / (r._cdfCount : ℚ) / 10) r._cdfCount.toNat)
    _ _ _ _ hloop
    ⟨by simp, Nat.zero_le _, by simp, Nat.zero_le _, by simp,
      fun k hk => absurd hk (Nat.not_lt_zero k), fun m hm => absurd hm (Nat.not_lt_zero m)⟩
    (fun i u u2 _ hu hb => fillStep_inv _ _ _ (by positivity) _ i u u2 hu hb)
  obtain ⟨_, _, _, _, _, _, hent⟩ := hinv
  intro m hm
  obtain ⟨b, hb, hfe⟩ := hent m hm
  refine ⟨b, hb, ?_⟩
  have : ((m : ℚ) + 1 / 10) / (r._cdfCount : ℚ)
      = 1 / (r._cdfCount : ℚ) / 10 + (m : ℚ) * (1 / (r._cdfCount : ℚ)) := by
    field_simp; ring
  rw [this]; exact hfe

/-- C8, as stated, fails: on the bins `[1/5, 4/5]`, `setCdf(1)` builds a table of size 2
whose entry 0 is bin 0, but the cumulative probability `1/5` of bin 0 does not exceed
`(0 + 0.5)/2`. -/
theorem setCdf_lookup_not_half :
    ∃ r2, RF.fifths.setCdf 1 = some (r2, true) ∧ (0 : ℤ) < r2._cdfCount ∧
      at? r2._cdfLookup 0 = some 0 ∧
      ¬ IsFirstExceed r2._pdf (((0 : ℚ) + 1 / 2) / (r2._cdfCount : ℚ)) 0 := by
  refine ⟨⟨[1 / 5, 4 / 5], 2, 0, 1, 1, 2, [0, 1], [1 / 5, 1]⟩, by decide!, by decide!,
    by decide!, ?_⟩
  intro h
  have h2 := h.2.1
  norm_num at h2

/-- C8 (amended): after a successful `setCdf`, for every `j` in `[0, cdfTableSize)` the
entry `cdfLookup(j)` is the smallest bin index `i` whose cumulative probability
`pdf(0)+...+pdf(i)` exceeds `(j+0.1)/cdfTableSize`. -/
theorem setCdf_lookup_first_exceed (r r2 : RF) (countPerBin : ℤ)
    (h : r.setCdf countPerBin = some (r2, true)) (j : ℕ) (hj : (j : ℤ) < r2._cdfCount) :
    ∃ i : ℕ, at? r2._cdfLookup j = some (i : ℤ) ∧
      IsFirstExceed r2._pdf (((j : ℚ) + 1 / 10) / (r2._cdfCount : ℚ)) i := by
  simp only [RF.setCdf] at h
  generalize (if countPerBin < 1 then (1 : ℤ) else countPerBin) = cpb at h
  by_cases hn : r.normalize.2 = false
  · rw [if_pos hn] at h
    simp only [Option.some.injEq, Prod.mk.injEq] at h
    exact absurd h.2 (by decide)
  · rw [if_neg hn] at h
    simp only [Option.bind_eq_some] at h
    obtain ⟨⟨tbl, j2, cum⟩, hfill, hrest⟩ := h
    by_cases hne : (j2 : ℤ) ≠ min 1000000 (cpb * r.normalize.1.getCount)
    · rw [if_pos hne] at hrest
      cases hrest
    · rw [if_neg hne] at hrest
      simp only [Option.map_eq_some', Prod.mk.injEq, and_true] at hrest
      obtain ⟨c, _, rfl⟩ := hrest
      simp only at hj ⊢
      have hj2 : j < j2 := by
        have := not_not.mp hne
        omega
      have hN : 0 < ({ r.normalize.1 with
          _cdfCount := min 1000000 (cpb * r.normalize.1.getCount) } : RF)._cdfCount := by
        show 0 < min 1000000 (cpb * r.normalize.1.getCount)
        omega
      obtain ⟨b, hb, hfe⟩ := fillLookup_entries _ tbl j2 cum hN hfill j hj2
      exact ⟨b, by rw [at?_natCast]; exact hb, hfe⟩

/-- Witness of C8 (amended): the bins `[1/5, 4/5]`, `setCdf(3)`, entry `j = 1`. -/
theorem setCdf_lookup_first_exceed_witness :
    RF.fifths.setCdf 3
      = some (⟨[1 / 5, 4 / 5], 2, 0, 1, 1, 6, [0, 0, 1, 1, 1, 1], [1 / 5, 1]⟩, true) ∧
    ∃ i : ℕ, at? [0, 0, 1, 1, 1, (1 : ℤ)] ((1 : ℕ) : ℤ) = some (i : ℤ) ∧
      IsFirstExceed [1 / 5, 4 / 5] ((((1 : ℕ) : ℚ) + 1 / 10) / ((6 : ℤ) : ℚ)) i :=
  ⟨by decide!,
   setCdf_lookup_first_exceed RF.fifths
    ⟨[1 / 5, 4 / 5], 2, 0, 1, 1, 6, [0, 0, 1, 1, 1, 1], [1 / 5, 1]⟩ 3 (by decide!) 1
    (by decide)⟩

/-! ### C17, C18: the Schrage update -/

/-- C17: for `1 ≤ s ≤ 2^31-2` the Schrage update of `randf` yields `(16807*s) mod (2^31-1)`,
and the result is again in `[1, 2^31-2]`. -/
theorem schrage_eq_mod (s : ℤ) (h1 : 1 ≤ s) (h2 : s ≤ 2147483646) :
    schrage s = (16807 * s) % 2147483647 ∧ 1 ≤ schrage s ∧ schrage s ≤ 2147483646 := by
  have hk : Int.tdiv s 127773 = s / 127773 := Int.tdiv_eq_ediv (by omega) (by omega)
  simp only [schrage, IA, IM, IQ, IR, hk]
  split_ifs <;> omega

/-- Witness of C17 at `s = 2147483646`. -/
theorem schrage_eq_mod_witness :
    (1 : ℤ) ≤ 2147483646 ∧ schrage 2147483646 = (16807 * 2147483646) % 2147483647 ∧
      1 ≤ schrage 2147483646 ∧ schrage 2147483646 ≤ 2147483646 :=
  ⟨by decide, schrage_eq_mod 2147483646 (by decide) (by decide)⟩

/-- C18: for `1 ≤ s ≤ 2^31-2` every intermediate value of the Schrage update fits a 32-bit
signed integer, and the update evaluated with wrap-around modulo `2^32` equals the exact
one. -/
theorem schrage_no_overflow (s : ℤ) (h1 : 1 ≤ s) (h2 : s ≤ 2147483646) :
    Fits32 (Int.tdiv s IQ * IQ) ∧
    Fits32 (s - Int.tdiv s IQ * IQ) ∧
    Fits32 (IA * (s - Int.tdiv s IQ * IQ)) ∧
    Fits32 (IR * Int.tdiv s IQ) ∧
    Fits32 (IA * (s - Int.tdiv s IQ * IQ) - IR * Int.tdiv s IQ) ∧
    (IA * (s - Int.tdiv s IQ * IQ) - IR * Int.tdiv s IQ < 0 →
      Fits32 (IA * (s - Int.tdiv s IQ * IQ) - IR * Int.tdiv s IQ + IM)) ∧
    schrage32 s = schrage s := by
  have hk : Int.tdiv s 127773 = s / 127773 := Int.tdiv_eq_ediv (by omega) (by omega)
  simp only [schrage32, schrage, wrap32, Fits32, IA, IM, IQ, IR, hk]
  refine ⟨by omega, by omega, by omega, by omega, by omega, by omega, ?_⟩
  have e1 : (s / 127773 * 127773 + 2147483648) % 4294967296 - 2147483648
      = s / 127773 * 127773 := by omega
  rw [e1]
  have e2 : (s - s / 127773 * 127773 + 2147483648) % 4294967296 - 2147483648
      = s - s / 127773 * 127773 := by omega
  rw [e2]
  have e3 : (16807 * (s - s / 127773 * 127773) + 2147483648) % 4294967296 - 2147483648
      = 16807 * (s - s / 127773 * 127773) := by omega
  rw [e3]
  have e4 : (2836 * (s / 127773) + 2147483648) % 4294967296 - 2147483648
      = 2836 * (s / 127773) := by omega
  rw [e4]
  have e5 : (16807 * (s - s / 127773 * 127773) - 2836 * (s / 127773) + 2147483648)
      % 4294967296 - 2147483648
      = 16807 * (s - s / 127773 * 127773) - 2836 * (s / 127773) := by omega
  rw [e5]
  split_ifs with hneg
  · omega
  · rfl

/-- Witness of C18 at `s = 2147483646`. -/
theorem schrage_no_overflow_witness :
    (1 : ℤ) ≤ 2147483646 ∧ (2147483646 : ℤ) ≤ 2147483646 ∧
    schrage32 2147483646 = schrage 2147483646 :=
  ⟨by decide, by decide, (schrage_no_overflow 2147483646 (by decide) (by decide)).2.2.2.2.2.2⟩

/-! ### C16: length of the result of `randperm` -/

theorem resize_length (v : List ℤ) (k : ℕ) : (resize v k).length = k := by
  simp only [resize, List.length_append, List.length_take, List.length_replicate]
  omega

/-- C16, as stated, fails: for `k = -1` and `n = 2` the result has length `2`, not
`min(max(k, 0), n) = 0`. -/
theorem randperm_negative_k_length :
    (randperm (fun _ => 1 / 2) 2 (-1)).length = 2 ∧ min (max (-1 : ℤ) 0) ((2 : ℕ) : ℤ) = 0 := by
  refine ⟨?_, by decide⟩
  rw [randperm, resize_length]
  decide

/-- C16 (amended): for every `n ≥ 0`, every integer `k` and all draws, the vector returned
by `randperm` has length `n` when `k < 0`, and length `min(k, n)` when `k ≥ 0`. -/
theorem randperm_length (draws : ℕ → ℚ) (n : ℕ) (k : ℤ) :
    ((randperm draws n k).length : ℤ) = if k < 0 then (n : ℤ) else min k n := by
  rw [randperm, resize_length]
  split_ifs with h1 h2 h3 <;> omega

/-! ### C12: the bin count set by `init` -/

theorem at?_natCast_succ {α : Type} (m : List α) (k : ℕ) : at? m ((k : ℤ) + 1) = m[k + 1]? := by
  have : ((k : ℤ) + 1) = ((k + 1 : ℕ) : ℤ) := by push_cast; ring
  rw [this, at?_natCast]

theorem lt_of_getElem_eq_some {α : Type} (m : List α) (k : ℕ) (v : α) (h : m[k]? = some v) :
    ∃ hk : k < m.length, m[k] = v := List.getElem?_eq_some.mp h

theorem setAt_some_natCast {α : Type} (m m2 : List α) (k : ℕ) (v : α)
    (h : setAt m (k : ℤ) v = some m2) : k < m.length ∧ m2 = m.set k v := by
  simp only [setAt, Int.toNat_ofNat, Nat.cast_nonneg, true_and] at h
  split_ifs at h with hk
  exact ⟨hk, (Option.some.inj h).symm⟩

theorem setCdf_true_parts (r r2 : RF) (countPerBin : ℤ)
    (h : r.setCdf countPerBin = some (r2, true)) :
    ∃ (N : ℤ) (tbl : List ℤ) (j : ℕ) (cum : ℚ) (c : List ℚ),
      N = min 1000000 ((if countPerBin < 1 then 1 else countPerBin) * r.normalize.1.getCount) ∧
      ({ r.normalize.1 with _cdfCount := N } : RF).fillLookup = some (tbl, j, cum) ∧
      (j : ℤ) = N ∧
      ({ r.normalize.1 with _cdfCount := N, _cdfLookup := tbl } : RF).buildCdf = some c ∧
      r2 = { r.normalize.1 with _cdfCount := N, _cdfLookup := tbl, _cdf := c } := by
  simp only [RF.setCdf] at h
  generalize (if countPerBin < 1 then (1 : ℤ) else countPerBin) = cpb at h ⊢
  by_cases hn : r.normalize.2 = false
  · rw [if_pos hn] at h
    simp only [Option.some.injEq, Prod.mk.injEq] at h
    exact absurd h.2 (by decide)
  · rw [if_neg hn] at h
    simp only [Option.bind_eq_some] at h
    obtain ⟨⟨tbl, j2, cum⟩, hfill, hrest⟩ := h
    by_cases hne : (j2 : ℤ) ≠ min 1000000 (cpb * r.normalize.1.getCount)
    · rw [if_pos hne] at hrest
      cases hrest
    · rw [if_neg hne] at hrest
      simp only [Option.map_eq_some', Prod.mk.injEq, and_true] at hrest
      obtain ⟨c, hc, rfl⟩ := hrest
      exact ⟨_, tbl, j2, cum, c, rfl, hfill, not_not.mp hne, hc, rfl⟩

theorem buildCdf_entries (r : RF) (cd : List ℚ) (h : r.buildCdf = some cd) :
    cd.length = r.getCount.toNat ∧ r.getCount.toNat ≤ r._pdf.length ∧ 0 < r.getCount.toNat ∧
    ∀ m, m < r.getCount.toNat → cd[m]? = some (r._pdf.take (m + 1)).sum := by
  simp only [RF.buildCdf, Option.bind_eq_some] at h
  obtain ⟨p0, hp0, cdf0, hset, hloop⟩ := h
  have hp0n : at? r._pdf ((0 : ℕ) : ℤ) = some p0 := by simpa using hp0
  rw [at?_natCast] at hp0n
  obtain ⟨hpl, hp0v⟩ := lt_of_getElem_eq_some _ _ _ hp0n
  have hsetn : setAt (List.replicate r.getCount.toNat (0 : ℚ)) ((0 : ℕ) : ℤ) p0 = some cdf0 := by
    simpa using hset
  obtain ⟨hn0, hcdf0⟩ := setAt_some_natCast _ _ _ _ hsetn
  simp only [List.length_replicate] at hn0
  have hinv := forLoop_inv_of_some
    (fun k (cd : List ℚ) => cd.length = r.getCount.toNat ∧ k + 1 ≤ r._pdf.length ∧
      ∀ m, m ≤ k → cd[m]? = some (r._pdf.take (m + 1)).sum)
    _ _ _ _ hloop
    (by
      refine ⟨by rw [hcdf0]; simp, hpl, ?_⟩
      intro m hm
      have hm0 : m = 0 := by omega
      subst hm0
      rw [hcdf0, List.getElem?_set_self (by simpa using hn0)]
      rw [List.sum_take_succ _ 0 hpl, hp0v]
      simp)
    (by
      intro k u u2 hk ⟨hlen, hkp, hent⟩ hb
      simp only [Option.bind_eq_some] at hb
      obtain ⟨prev, hprev, pj, hpj, hset2⟩ := hb
      have e1 : ((k : ℤ) + 1 - 1) = (k : ℤ) := by ring
      rw [e1, at?_natCast, hent k le_rfl] at hprev
      cases hprev
      rw [at?_natCast_succ] at hpj
      obtain ⟨hk1, hpjv⟩ := lt_of_getElem_eq_some _ _ _ hpj
      have e2 : ((k : ℤ) + 1) = ((k + 1 : ℕ) : ℤ) := by push_cast; ring
      rw [e2] at hset2
      obtain ⟨hk2, hu2⟩ := setAt_some_natCast _ _ _ _ hset2
      refine ⟨by rw [hu2]; simp [hlen], by omega, ?_⟩
      intro m hm
      by_cases hmk : m = k + 1
      · subst hmk
        rw [hu2, List.getElem?_set_self hk2, List.sum_take_succ _ (k + 1) hk1, hpjv]
      · rw [hu2, List.getElem?_set_ne (by omega)]
        exact hent m (by omega))
  obtain ⟨hlen, hkp, hent⟩ := hinv
  refine ⟨hlen, by omega, hn0, ?_⟩
  intro m hm
  exact hent m (by omega)

/-- C11: after a successful `setCdf`, for every `x` whose bin index lies in `[0, binCount)`
the cache is in use (`_cdfCount > 0`), `cdf(x)` returns the stored prefix sum, and that is
`pdf(0) + ... + pdf(getIndex(x))`, the value the summation path returns for the same bins
when no cache is built. -/
theorem cdf_table_eq_sum (r r2 : RF) (countPerBin : ℤ) (x : ℚ)
    (h : r.setCdf countPerBin = some (r2, true))
    (h0 : 0 ≤ r2.getIndex x) (h1 : r2.getIndex x < r2.getCount) :
    0 < r2._cdfCount ∧
    r2.cdf x = at? r2._cdf (r2.getIndex x) ∧
    r2.cdf x = some (r2._pdf.take ((r2.getIndex x).toNat + 1)).sum ∧
    ({ r2 with _cdfCount := 0 } : RF).cdf x
      = some (r2._pdf.take ((r2.getIndex x).toNat + 1)).sum := by
  obtain ⟨N, tbl, j, cum, c, hN, _, hj, hc, rfl⟩ := setCdf_true_parts r r2 countPerBin h
  obtain ⟨hlen, hle, hpos, hent⟩ := buildCdf_entries _ c hc
  simp only [RF.getCount] at hlen hle hpos hent h1
  simp only [RF.getIndex] at h0 h1
  have hNpos : 0 < N := by
    rw [hN]
    simp only [RF.getCount]
    have : (1 : ℤ) ≤ (if countPerBin < 1 then 1 else countPerBin) := by split_ifs <;> omega
    have h2 : 0 < r.normalize.1._cnt := by omega
    have := mul_pos (by omega : (0 : ℤ) < (if countPerBin < 1 then 1 else countPerBin)) h2
    omega
  have hge : ¬ (⌊(x - r.normalize.1._minV) * r.normalize.1._wInv⌋ ≥ r.normalize.1._cnt) := by
    omega
  obtain ⟨i, hi⟩ := Int.eq_ofNat_of_zero_le h0
  have hilt : i < r.normalize.1._cnt.toNat := by omega
  refine ⟨hNpos, ?_, ?_, ?_⟩
  · simp only [RF.cdf, RF.getIndex, RF.getCount, hge, if_false, gt_iff_lt, hNpos, if_true]
  · simp only [RF.cdf, RF.getIndex, RF.getCount, hge, if_false, gt_iff_lt, hNpos, if_true]
    rw [hi, at?_natCast, hent i hilt]
    simp
  · simp only [RF.cdf, RF.getIndex, RF.getCount, hge, if_false, gt_iff_lt, lt_irrefl]
    rw [hi]
    have e : ((i : ℤ) + 1).toNat = i + 1 := by omega
    rw [e, cdf_sum_loop _ (i + 1) (by omega)]
    simp

/-- Witness of C11: bins `[1/5, 4/5]` over `[0, 1]`, `setCdf(3)`, `x = 1`. -/
theorem cdf_table_eq_sum_witness :
    (RF.fifths.setCdf 3 = some (RF.fifthsBuilt, true) ∧
      0 ≤ RF.fifthsBuilt.getIndex 1 ∧ RF.fifthsBuilt.getIndex 1 < RF.fifthsBuilt.getCount) ∧
    0 < RF.fifthsBuilt._cdfCount ∧
    RF.fifthsBuilt.cdf 1 = at? RF.fifthsBuilt._cdf (RF.fifthsBuilt.getIndex 1) ∧
    RF.fifthsBuilt.cdf 1
      = some (RF.fifthsBuilt._pdf.take ((RF.fifthsBuilt.getIndex 1).toNat + 1)).sum ∧
    ({ RF.fifthsBuilt with _cdfCount := 0 } : RF).cdf 1
      = some (RF.fifthsBuilt._pdf.take ((RF.fifthsBuilt.getIndex 1).toNat + 1)).sum :=
  ⟨⟨by decide!, by decide!, by decide!⟩,
   cdf_table_eq_sum RF.fifths RF.fifthsBuilt 3 1 (by decide!) (by decide!) (by decide!)⟩

/-! ### C20: the table names bins of positive weight -/

theorem pos_of_firstExceed (pdf : List ℚ) (t : ℚ) (i : ℕ) (ht : 0 ≤ t)
    (h : IsFirstExceed pdf t i) : ∃ p, pdf[i]? = some p ∧ 0 < p := by
  obtain ⟨hi, hgt, hprev⟩ := h
  refine ⟨pdf[i], List.getElem?_eq_getElem hi, ?_⟩
  rw [List.sum_take_succ pdf i hi] at hgt
  cases i with
  | zero =>
    simp only [List.take_zero, List.sum_nil, zero_add] at hgt
    linarith
  | succ k =>
    have := hprev k (Nat.lt_succ_self k)
    linarith

/-- C20: after a successful `setCdf`, every entry `cdfLookup(j)`, `0 ≤ j < cdfTableSize`,
is the index of a bin whose (normalized) weight is strictly positive. -/
theorem lookup_names_positive_bin (r r2 : RF) (countPerBin : ℤ)
    (h : r.setCdf countPerBin = some (r2, true)) (j : ℕ) (hj : (j : ℤ) < r2._cdfCount) :
    ∃ i : ℕ, at? r2._cdfLookup j = some (i : ℤ) ∧ ∃ p, at? r2._pdf i = some p ∧ 0 < p := by
  obtain ⟨N, tbl, j2, cum, cd, _, hfill, hj2, _, rfl⟩ := setCdf_true_parts r r2 countPerBin h
  simp only at hj ⊢
  have hN : 0 < ({ r.normalize.1 with _cdfCount := N } : RF)._cdfCount := by
    show 0 < N
    omega
  obtain ⟨b, hb, hfe⟩ := fillLookup_entries _ tbl j2 cum hN hfill j (by omega)
  have hNq : (0 : ℚ) < (N : ℚ) := by exact_mod_cast (by omega : (0 : ℤ) < N)
  have ht : (0 : ℚ) ≤ ((j : ℚ) + 1 / 10) / (N : ℚ) := by positivity
  obtain ⟨p, hp, hpos⟩ := pos_of_firstExceed _ _ b ht hfe
  exact ⟨b, by rw [at?_natCast]; exact hb, p, by rw [at?_natCast]; exact hp, hpos⟩

/-- Witness of C20: bins `[1/5, 4/5]`, `setCdf(3)`, entry `j = 2`. -/
theorem lookup_names_positive_bin_witness :
    (RF.fifths.setCdf 3 = some (RF.fifthsBuilt, true) ∧
      ((2 : ℕ) : ℤ) < RF.fifthsBuilt._cdfCount) ∧
    ∃ i : ℕ, at? RF.fifthsBuilt._cdfLookup ((2 : ℕ) : ℤ) = some (i : ℤ) ∧
      ∃ p, at? RF.fifthsBuilt._pdf i = some p ∧ 0 < p :=
  ⟨⟨by decide!, by decide!⟩,
   lookup_names_positive_bin RF.fifths RF.fifthsBuilt 3 (by decide!) 2 (by decide!)⟩

/-! ### C19: the fill loop of `setCdf` writes exactly `_cdfCount` entries -/

theorem threshold_lt_one_iff (N : ℤ) (hN : 0 < N) (j : ℕ) :
    1 / (N : ℚ) / 10 + (j : ℚ) * (1 / (N : ℚ)) < 1 ↔ (j : ℤ) < N := by
  have hNq : (0 : ℚ) < (N : ℚ) := by exact_mod_cast hN
  have e : 1 / (N : ℚ) / 10 + (j : ℚ) * (1 / (N : ℚ)) = ((j : ℚ) + 1 / 10) / (N : ℚ) := by
    field_simp; ring
  rw [e, div_lt_one hNq]
  constructor
  · intro h
    have : ((j : ℤ) : ℚ) < (N : ℚ) := by push_cast; linarith
    exact_mod_cast this
  · intro h
    have h2 : (j : ℤ) + 1 ≤ N := by omega
    have : (((j : ℤ) + 1 : ℤ) : ℚ) ≤ (N : ℚ) := by exact_mod_cast h2
    push_cast at this
    linarith

theorem fillWhile_total (cumi del c0 : ℚ) (i : ℤ) :
    ∀ (room : ℕ) (tbl : List ℤ) (j : ℕ) (cum : ℚ),
      room = tbl.length - j → cum = c0 + (j : ℚ) * del →
      (∀ j2 : ℕ, c0 + (j2 : ℚ) * del < cumi → j2 < tbl.length) →
      ∃ res, fillWhile cumi del i room (tbl, j, cum) = some res := by
  intro room
  induction room with
  | zero =>
    intro tbl j cum hroom hcum hT
    rw [fillWhile]
    split_ifs with hlt
    · have := hT j (by rw [← hcum]; exact hlt)
      omega
    · exact ⟨_, rfl⟩
  | succ room ih =>
    intro tbl j cum hroom hcum hT
    rw [fillWhile]
    split_ifs with hlt
    · exact ih (tbl.set j i) (j + 1) (cum + del)
        (by simp only [List.length_set]; omega) (by rw [hcum]; push_cast; ring)
        (by simpa only [List.length_set] using hT)
    · exact ⟨_, rfl⟩

theorem sum_take_le_sum (l : List ℚ) (h0 : ∀ v ∈ l, 0 ≤ v) (k : ℕ) : (l.take k).sum ≤ l.sum := by
  have h := List.sum_take_add_sum_drop l k
  have hd : 0 ≤ (l.drop k).sum :=
    List.sum_nonneg (fun v hv => h0 v (List.mem_of_mem_drop hv))
  linarith

theorem fillLookup_total (q : RF) (hs : q.Sized) (h0 : ∀ v ∈ q._pdf, 0 ≤ v)
    (hsum : q._pdf.sum = 1) (hN : 0 < q._cdfCount) :
    ∃ tbl cum, q.fillLookup = some (tbl, q._cdfCount.toNat, cum) ∧
      tbl.length = q._cdfCount.toNat := by
  have hlen : q.getCount.toNat = q._pdf.length := by
    unfold RF.Sized at hs; unfold RF.getCount; omega
  have hNq : (0 : ℚ) < (q._cdfCount : ℚ) := by exact_mod_cast hN
  obtain ⟨t, ht, hinv⟩ := forLoop_inv
    (FillInv q._pdf (1 / (q._cdfCount : ℚ)) (1 / (q._cdfCount : ℚ) / 10) q._cdfCount.toNat)
    q.getCount.toNat (fillStep q._pdf (1 / (q._cdfCount : ℚ)))
    ((List.replicate q._cdfCount.toNat 0, 0, 1 / (q._cdfCount : ℚ) / 10), 0)
    ⟨by simp, Nat.zero_le _, by simp, Nat.zero_le _, by simp,
      fun k hk => absurd hk (Nat.not_lt_zero k), fun m hm => absurd hm (Nat.not_lt_zero m)⟩
    (by
      intro i u hi hu
      have hil : i < q._pdf.length := by omega
      obtain ⟨⟨tbl, j, cum⟩, cumi⟩ := u
      obtain ⟨hl, hj, hcum, _, hcumi, _, _⟩ := hu
      simp only at hl hj hcum hcumi
      have hle1 : cumi + q._pdf[i] ≤ 1 := by
        rw [hcumi, ← List.sum_take_succ q._pdf i hil, ← hsum]
        exact sum_take_le_sum _ h0 _
      obtain ⟨res, hres⟩ := fillWhile_total (cumi + q._pdf[i]) (1 / (q._cdfCount : ℚ))
        (1 / (q._cdfCount : ℚ) / 10) (i : ℤ) (tbl.length - j) tbl j cum rfl hcum
        (by
          intro j2 hj2
          have h1 : 1 / (q._cdfCount : ℚ) / 10 + (j2 : ℚ) * (1 / (q._cdfCount : ℚ)) < 1 :=
            lt_of_lt_of_le hj2 hle1
          have := (threshold_lt_one_iff _ hN j2).mp h1
          omega)
      have hstep : fillStep q._pdf (1 / (q._cdfCount : ℚ)) ((tbl, j, cum), cumi) i
          = some (res, cumi + q._pdf[i]) := by
        simp only [fillStep, at?_natCast, List.getElem?_eq_getElem hil, Option.some_bind, hres,
          Option.map_some']
      exact ⟨_, hstep, fillStep_inv _ _ _ (by positivity) _ i _ _
        ⟨hl, hj, hcum, by omega, hcumi, by assumption, by assumption⟩ hstep⟩)
  obtain ⟨⟨tbl, j, cum⟩, cumi⟩ := t
  obtain ⟨hl, hj, hcum, _, _, hprev, _⟩ := hinv
  simp only at hl hj hcum hprev
  have hne : 0 < q._pdf.length := by
    rcases Nat.eq_zero_or_pos q._pdf.length with h | h
    · rw [List.length_eq_zero.mp h] at hsum
      simp at hsum
    · exact h
  have hfull := hprev (q._pdf.length - 1) (by omega)
  have e1 : q._pdf.length - 1 + 1 = q._pdf.length := by omega
  rw [e1, List.take_length, hsum, hcum] at hfull
  have hnot : ¬ ((j : ℤ) < q._cdfCount) := by
    intro hlt
    have := (threshold_lt_one_iff _ hN j).mpr hlt
    linarith
  have hjeq : j = q._cdfCount.toNat := by omega
  subst hjeq
  exact ⟨tbl, cum, by simp only [RF.fillLookup, ht, Option.map_some'], hl⟩

theorem buildCdf_total (q : RF) (hs : q.Sized) (hpos : 0 < q._cnt) :
    ∃ cd, q.buildCdf = some cd := by
  have hlen : q.getCount.toNat = q._pdf.length := by
    unfold RF.Sized at hs; unfold RF.getCount; omega
  have hn : 0 < q._pdf.length := by unfold RF.Sized at hs; omega
  obtain ⟨t, ht, _⟩ := forLoop_inv (fun _ (cd : List ℚ) => cd.length = q._pdf.length)
    (q.getCount.toNat - 1)
    (fun (cd : List ℚ) (j0 : ℕ) =>
      (at? cd ((j0 : ℤ) + 1 - 1)).bind (fun prev =>
      (at? q._pdf ((j0 : ℤ) + 1)).bind (fun pj => setAt cd ((j0 : ℤ) + 1) (prev + pj))))
    ((List.replicate q.getCount.toNat (0 : ℚ)).set 0 q._pdf[0])
    (by simp [hlen])
    (by
      intro k u hk hu
      have e1 : ((k : ℤ) + 1 - 1) = (k : ℤ) := by ring
      have e2 : ((k : ℤ) + 1) = ((k + 1 : ℕ) : ℤ) := by push_cast; ring
      have hk1 : k + 1 < q._pdf.length := by omega
      have hk0 : k < u.length := by omega
      refine ⟨u.set (k + 1) (u[k] + q._pdf[k + 1]), ?_, by simp [hu]⟩
      simp only [e1, at?_natCast, List.getElem?_eq_getElem hk0, Option.some_bind]
      rw [e2, at?_natCast, List.getElem?_eq_getElem hk1]
      simp only [Option.some_bind]
      rw [setAt_natCast _ _ _ (by omega)])
  refine ⟨t, ?_⟩
  have h0 : at? q._pdf 0 = some q._pdf[0] := by
    have := at?_natCast q._pdf 0
    simp only [Nat.cast_zero] at this
    rw [this, List.getElem?_eq_getElem hn]
  have h1 : setAt (List.replicate q.getCount.toNat (0 : ℚ)) 0 q._pdf[0]
      = some ((List.replicate q.getCount.toNat (0 : ℚ)).set 0 q._pdf[0]) := by
    have := setAt_natCast (List.replicate q.getCount.toNat (0 : ℚ)) 0 q._pdf[0]
      (by simp [hlen, hn])
    simpa using this
  simp only [RF.buildCdf, h0, Option.some_bind, h1]
  exact ht

/-- The fill loop with the product `countPerBin*getCount()` taken exactly (`RF.setCdf`): on
an `RF` whose `_cnt` bins are non-negative with positive sum, `setCdf` returns
true for every `countPerBin`: `_cdfCount = min(1000000, max(countPerBin,1) * binCount)`, the
fill loop never writes outside the table and ends with `j = _cdfCount` (the assertion
holds), the table has `_cdfCount` entries, each a bin index in `[0, binCount)`, and the
entries are non-decreasing. -/
theorem setCdf_fill_exact (r : RF) (countPerBin : ℤ) (hs : r.Sized)
    (hnn : ∀ v ∈ r._pdf, 0 ≤ v) (hsum : 0 < r._pdf.sum) :
    ∃ r2 cum, r.setCdf countPerBin = some (r2, true) ∧
      r2._cdfCount = min 1000000 (max countPerBin 1 * r.getCount) ∧
      ({ r.normalize.1 with _cdfCount := r2._cdfCount } : RF).fillLookup
        = some (r2._cdfLookup, r2._cdfCount.toNat, cum) ∧
      (r2._cdfLookup.length : ℤ) = r2._cdfCount ∧
      (∀ j : ℕ, (j : ℤ) < r2._cdfCount →
        ∃ i : ℕ, at? r2._cdfLookup j = some (i : ℤ) ∧ (i : ℤ) < r2.getCount) ∧
      (∀ (j1 j2 : ℕ) (i1 i2 : ℤ), j1 ≤ j2 → at? r2._cdfLookup j1 = some i1 →
        at? r2._cdfLookup j2 = some i2 → i1 ≤ i2) := by
  have hok : r.normalize.2 = true := by rw [normalize_eq_of_pos r hsum]
  have hnn2 := normalize_nonneg_of_pos r hsum hnn
  have hsum2 := normalize_sum_of_pos r hsum
  have hcnt2 := normalize_cnt r
  have hlen2 := normalize_length r
  have hplen : 0 < r._pdf.length := by
    rcases Nat.eq_zero_or_pos r._pdf.length with h | h
    · rw [List.length_eq_zero.mp h] at hsum
      simp at hsum
    · exact h
  have hcpos : 0 < r._cnt := by unfold RF.Sized at hs; omega
  have hmax : (if countPerBin < 1 then (1 : ℤ) else countPerBin) = max countPerBin 1 := by
    rw [max_def]; split_ifs <;> omega
  have hNdef : ∃ N : ℤ, N = min 1000000 (max countPerBin 1 * r.normalize.1.getCount) ∧
      0 < N := by
    refine ⟨_, rfl, ?_⟩
    have h1 : (0 : ℤ) < max countPerBin 1 := by
      have := le_max_right countPerBin 1
      omega
    have h2 : 0 < r.normalize.1.getCount := by rw [RF.getCount, hcnt2]; exact hcpos
    have := mul_pos h1 h2
    omega
  obtain ⟨N, hN, hNpos⟩ := hNdef
  have hsized : ({ r.normalize.1 with _cdfCount := N } : RF).Sized := by
    show ((r.normalize.1._pdf.length : ℕ) : ℤ) = r.normalize.1._cnt
    rw [hlen2, hcnt2]; exact hs
  obtain ⟨tbl, cum, hfill, htl⟩ :=
    fillLookup_total { r.normalize.1 with _cdfCount := N } hsized hnn2 hsum2 hNpos
  simp only at hfill htl
  have hsized2 : ({ r.normalize.1 with _cdfCount := N, _cdfLookup := tbl } : RF).Sized := hsized
  obtain ⟨cd, hcd⟩ := buildCdf_total
    { r.normalize.1 with _cdfCount := N, _cdfLookup := tbl } hsized2
    (by show 0 < r.normalize.1._cnt; rw [hcnt2]; exact hcpos)
  have hent := fillLookup_entries { r.normalize.1 with _cdfCount := N } tbl N.toNat cum hNpos
    hfill
  simp only at hent
  have hNq : (0 : ℚ) < (N : ℚ) := by exact_mod_cast hNpos
  refine ⟨{ r.normalize.1 with _cdfCount := N, _cdfLookup := tbl, _cdf := cd }, cum,
    ?_, ?_, hfill, ?_, ?_, ?_⟩
  · have hj : ((N.toNat : ℕ) : ℤ) = N := by omega
    simp only [RF.setCdf, hok, hmax, ← hN, hfill, hj, hcd]
    simp only [Bool.true_eq_false, if_false, Option.some_bind, ne_eq, not_true_eq_false]
    have hcd2 : ({ r.normalize.1 with _cdfCount := N, _cdfLookup := tbl } : RF).buildCdf
        = some cd := hcd
    simp only [] at hcd2
    rw [hcd2, if_neg (not_not.mpr hj)]
    rfl
  · show N = min 1000000 (max countPerBin 1 * r.getCount)
    rw [hN, RF.getCount, RF.getCount, hcnt2]
  · have : ((tbl.length : ℕ) : ℤ) = N := by omega
    exact this
  · intro j hj
    have hjN : (j : ℤ) < N := hj
    obtain ⟨b, hb, hfe⟩ := hent j (by omega)
    refine ⟨b, by rw [at?_natCast]; exact hb, ?_⟩
    show (b : ℤ) < r.normalize.1._cnt
    have := hfe.1
    rw [hcnt2]
    unfold RF.Sized at hs
    omega
  · intro j1 j2 i1 i2 hle h1 h2
    have h1 : at? tbl (j1 : ℤ) = some i1 := h1
    have h2 : at? tbl (j2 : ℤ) = some i2 := h2
    simp only [at?_natCast] at h1 h2
    obtain ⟨hj1, _⟩ := lt_of_getElem_eq_some _ _ _ h1
    obtain ⟨hj2, _⟩ := lt_of_getElem_eq_some _ _ _ h2
    obtain ⟨b1, hb1, hfe1⟩ := hent j1 (by omega)
    obtain ⟨b2, hb2, hfe2⟩ := hent j2 (by omega)
    rw [hb1] at h1
    rw [hb2] at h2
    cases h1
    cases h2
    by_contra hcon
    have hlt : b2 < b1 := by omega
    have ha := hfe1.2.2 b2 hlt
    have hb := hfe2.2.1
    have hjq : (j1 : ℚ) ≤ (j2 : ℚ) := by exact_mod_cast hle
    have hmono : ((j1 : ℚ) + 1 / 10) / (N : ℚ) ≤ ((j2 : ℚ) + 1 / 10) / (N : ℚ) :=
      div_le_div_of_nonneg_right (by linarith) (le_of_lt hNq)
    linarith

/-- Instance of `setCdf_fill_exact`: bins `[1/5, 4/5]` over `[0, 1]`, `setCdf(3)`. -/
theorem setCdf_fill_exact_witness :
    (RF.fifths.Sized ∧ (0 : ℚ) < RF.fifths._pdf.sum) ∧
    ∃ r2 cum, RF.fifths.setCdf 3 = some (r2, true) ∧
      r2._cdfCount = min 1000000 (max 3 1 * RF.fifths.getCount) ∧
      ({ RF.fifths.normalize.1 with _cdfCount := r2._cdfCount } : RF).fillLookup
        = some (r2._cdfLookup, r2._cdfCount.toNat, cum) ∧
      (r2._cdfLookup.length : ℤ) = r2._cdfCount ∧
      (∀ j : ℕ, (j : ℤ) < r2._cdfCount →
        ∃ i : ℕ, at? r2._cdfLookup j = some (i : ℤ) ∧ (i : ℤ) < r2.getCount) ∧
      (∀ (j1 j2 : ℕ) (i1 i2 : ℤ), j1 ≤ j2 → at? r2._cdfLookup j1 = some i1 →
        at? r2._cdfLookup j2 = some i2 → i1 ≤ i2) :=
  ⟨⟨by decide!, by decide!⟩,
   setCdf_fill_exact RF.fifths 3 (by decide!)
    (by intro v hv; simp only [RF.fifths, List.mem_cons, List.mem_singleton,
          List.not_mem_nil, or_false] at hv; rcases hv with h | h <;> rw [h] <;> norm_num)
    (by decide!)⟩

/-! ### C13, C14: `sampleNonSetCdf` -/

theorem scanLoop_some (pdf : List ℚ) (v : ℚ) :
    ∀ (m i : ℕ) (s : ℚ), i + m = pdf.length →
      ∃ idx : ℕ, scanLoop pdf v m (i : ℤ) s = some (idx : ℤ) ∧ i ≤ idx ∧
        (idx < pdf.length ∨ idx = i + m) := by
  intro m
  induction m with
  | zero =>
    intro i s _
    exact ⟨i, by simp [scanLoop], le_rfl, Or.inr rfl⟩
  | succ m ih =>
    intro i s hlen
    have hil : i < pdf.length := by omega
    rw [scanLoop, at?_natCast, List.getElem?_eq_getElem hil, Option.some_bind]
    split_ifs with hc
    · exact ⟨i, rfl, le_rfl, Or.inl hil⟩
    · obtain ⟨idx, h1, h2, h3⟩ := ih (i + 1) (s + pdf[i]) (by omega)
      have e : ((i : ℤ) + 1) = ((i + 1 : ℕ) : ℤ) := by push_cast; ring
      rw [e]
      exact ⟨idx, h1, by omega, by omega⟩

theorem scanLoop_all_zero (pdf : List ℚ) (v : ℚ) (hz : ∀ p ∈ pdf, ¬ (0 < p)) :
    ∀ (m i : ℕ) (s : ℚ), i + m = pdf.length →
      scanLoop pdf v m (i : ℤ) s = some ((i + m : ℕ) : ℤ) := by
  intro m
  induction m with
  | zero => intro i s _; simp [scanLoop]
  | succ m ih =>
    intro i s hlen
    have hil : i < pdf.length := by omega
    rw [scanLoop, at?_natCast, List.getElem?_eq_getElem hil, Option.some_bind]
    have hp : ¬ (0 < pdf[i]) := hz _ (List.getElem_mem hil)
    have hc : ¬ (s + pdf[i] ≥ v ∧ pdf[i] > 0) := fun h => hp h.2
    rw [if_neg hc]
    have e : ((i : ℤ) + 1) = ((i + 1 : ℕ) : ℤ) := by push_cast; ring
    rw [e, ih (i + 1) (s + pdf[i]) (by omega)]
    congr 2
    omega

theorem exists_pos_of_sum_pos (l : List ℚ) (h : 0 < l.sum) : ∃ q ∈ l, 0 < q := by
  induction l with
  | nil => simp at h
  | cons a t ih =>
    rw [List.sum_cons] at h
    by_cases ha : 0 < a
    · exact ⟨a, List.mem_cons_self _ _, ha⟩
    · obtain ⟨q, hq, hpos⟩ := ih (by linarith)
      exact ⟨q, List.mem_cons_of_mem _ hq, hpos⟩

theorem scanLoop_found (pdf : List ℚ) (v : ℚ) :
    ∀ (m i : ℕ) (s : ℚ), i + m = pdf.length → (∃ q ∈ pdf.drop i, 0 < q) →
      v ≤ s + (pdf.drop i).sum →
      ∃ idx : ℕ, scanLoop pdf v m (i : ℤ) s = some (idx : ℤ) ∧ idx < pdf.length := by
  intro m
  induction m with
  | zero =>
    intro i s hlen hq _
    obtain ⟨q, hq, _⟩ := hq
    rw [List.drop_of_length_le (by omega)] at hq
    simp at hq
  | succ m ih =>
    intro i s hlen hq hv
    have hil : i < pdf.length := by omega
    rw [scanLoop, at?_natCast, List.getElem?_eq_getElem hil, Option.some_bind]
    have hdrop : pdf.drop i = pdf[i] :: pdf.drop (i + 1) := List.drop_eq_getElem_cons hil
    split_ifs with hc
    · exact ⟨i, rfl, hil⟩
    · have e : ((i : ℤ) + 1) = ((i + 1 : ℕ) : ℤ) := by push_cast; ring
      rw [e]
      rw [hdrop, List.sum_cons] at hv
      apply ih (i + 1) (s + pdf[i]) (by omega) _ (by linarith)
      by_cases hp : 0 < pdf[i]
      · have hlt : s + pdf[i] < v := by
          by_contra hge
          exact hc ⟨not_lt.mp hge, hp⟩
        exact exists_pos_of_sum_pos _ (by linarith)
      · obtain ⟨q, hqm, hqpos⟩ := hq
        rw [hdrop, List.mem_cons] at hqm
        rcases hqm with h | h
        · rw [h] at hqpos; exact absurd hqpos hp
        · exact ⟨q, h, hqpos⟩

theorem eq_zero_of_sum_zero (l : List ℚ) (h0 : ∀ p ∈ l, 0 ≤ p) (hs : l.sum = 0) :
    ∀ p ∈ l, ¬ (0 < p) := by
  induction l with
  | nil => intro p hp; simp at hp
  | cons a t ih =>
    have ha : 0 ≤ a := h0 a (List.mem_cons_self _ _)
    have ht : 0 ≤ t.sum := List.sum_nonneg (fun v hv => h0 v (List.mem_cons_of_mem _ hv))
    rw [List.sum_cons] at hs
    intro p hp
    rw [List.mem_cons] at hp
    rcases hp with h | h
    · rw [h]; linarith
    · exact ih (fun v hv => h0 v (List.mem_cons_of_mem _ hv)) (by linarith) p h

theorem sample_fresh (r : RF) (draws : ℕ → ℚ) (hs : r.Sized)
    (hsum : 0 < r._pdf.sum) (hd : ∀ k, 0 < draws k ∧ draws k < 1) (n k : ℕ) :
    ∃ i : ℕ, (i : ℤ) < r.getCount ∧
      r.sampleNonSetCdf draws (n + 1) k 0 = SampleOutcome.value (r.getVal i) := by
  have hlen : r.getCount.toNat = r._pdf.length := by
    unfold RF.Sized at hs; unfold RF.getCount; omega
  have hv : draws k * r._pdf.sum ≤ 0 + (r._pdf.drop 0).sum := by
    rw [List.drop_zero, zero_add]
    nlinarith [(hd k).1, (hd k).2]
  obtain ⟨idx, hscan, hidx⟩ := scanLoop_found r._pdf (draws k * r._pdf.sum)
    r._pdf.length 0 0 (by omega)
    (by rw [List.drop_zero]; exact exists_pos_of_sum_pos _ hsum) hv
  have hne : ¬ ((idx : ℤ) = r.getCount) := by
    unfold RF.Sized at hs; unfold RF.getCount; omega
  refine ⟨idx, by unfold RF.Sized at hs; unfold RF.getCount; omega, ?_⟩
  simp only [RF.sampleNonSetCdf, if_true, ne_of_gt hsum, if_false, hlen]
  simp only [Nat.cast_zero] at hscan
  rw [hscan]
  simp only [hne, if_false]

theorem sample_any (r : RF) (draws : ℕ → ℚ) (hs : r.Sized)
    (hsum : 0 < r._pdf.sum) (hd : ∀ k, 0 < draws k ∧ draws k < 1) (n k : ℕ) (cumsum : ℚ) :
    ∃ i : ℕ, (i : ℤ) < r.getCount ∧
      r.sampleNonSetCdf draws (n + 2) k cumsum = SampleOutcome.value (r.getVal i) := by
  have hlen : r.getCount.toNat = r._pdf.length := by
    unfold RF.Sized at hs; unfold RF.getCount; omega
  have hc : ¬ ((if cumsum = 0 then r._pdf.sum else cumsum) = 0) := by
    split_ifs with h
    · exact ne_of_gt hsum
    · exact h
  obtain ⟨idx, hscan, _, hidx⟩ := scanLoop_some r._pdf
    (draws k * (if cumsum = 0 then r._pdf.sum else cumsum)) r._pdf.length 0 0 (by omega)
  simp only [Nat.cast_zero] at hscan
  rw [RF.sampleNonSetCdf]
  simp only [hc, if_false, hlen, hscan]
  by_cases he : (idx : ℤ) = r.getCount
  · simp only [he, if_true]
    exact sample_fresh r draws hs hsum hd n (k + 1)
  · simp only [he, if_false]
    refine ⟨idx, ?_, rfl⟩
    unfold RF.Sized at hs
    unfold RF.getCount at he ⊢
    omega

theorem sample_zero (r : RF) (draws : ℕ → ℚ) (hs : r.Sized) (h0 : ∀ p ∈ r._pdf, 0 ≤ p)
    (hsum : r._pdf.sum = 0) (n k : ℕ) (cumsum : ℚ) :
    r.sampleNonSetCdf draws (n + 2) k cumsum = SampleOutcome.abort := by
  have hlen : r.getCount.toNat = r._pdf.length := by
    unfold RF.Sized at hs; unfold RF.getCount; omega
  have hz := eq_zero_of_sum_zero r._pdf h0 hsum
  rw [RF.sampleNonSetCdf]
  by_cases hc : cumsum = 0
  · simp only [hc, if_true, hsum]
  · simp only [hc, if_false, hlen]
    have hscan := scanLoop_all_zero r._pdf (draws k * cumsum) hz r._pdf.length 0 0 (by omega)
    simp only [Nat.cast_zero, zero_add] at hscan
    rw [hscan]
    have he : ((r._pdf.length : ℕ) : ℤ) = r.getCount := by
      unfold RF.Sized at hs; unfold RF.getCount; omega
    simp only [he, if_true]
    rw [RF.sampleNonSetCdf]
    simp only [if_true, hsum]

/-- C13: on an `RF` whose `_cnt` bins are non-negative, for every caller-supplied `cumsum`
and all draws of `randf` in `(0,1)`, `sampleNonSetCdf` (allowed at least one recursive
call) ends in `abortError` if and only if the bins sum to zero; when the sum is positive
it returns the representative value of a bin. -/
theorem sample_aborts_iff (r : RF) (draws : ℕ → ℚ) (hs : r.Sized)
    (h0 : ∀ p ∈ r._pdf, 0 ≤ p) (hd : ∀ k, 0 < draws k ∧ draws k < 1) (n k : ℕ) (cumsum : ℚ) :
    (r.sampleNonSetCdf draws (n + 2) k cumsum = SampleOutcome.abort ↔ r._pdf.sum = 0) ∧
    (0 < r._pdf.sum → ∃ i : ℕ, (i : ℤ) < r.getCount ∧
      r.sampleNonSetCdf draws (n + 2) k cumsum = SampleOutcome.value (r.getVal i)) := by
  have hnn : 0 ≤ r._pdf.sum := List.sum_nonneg h0
  constructor
  · constructor
    · intro hab
      by_contra hne
      have hpos : 0 < r._pdf.sum := lt_of_le_of_ne hnn (Ne.symm hne)
      obtain ⟨i, _, hi⟩ := sample_any r draws hs hpos hd n k cumsum
      rw [hi] at hab
      cases hab
    · intro hz
      exact sample_zero r draws hs h0 hz n k cumsum
  · intro hpos
    exact sample_any r draws hs hpos hd n k cumsum

/-- Witness of C13: the bins `[0, 1/4, 3/4]`, a stale `cumsum = 10`, draws `1/2`. -/
theorem sample_aborts_iff_witness :
    RF.quarters.Sized ∧
    (RF.quarters.sampleNonSetCdf (fun _ => 1 / 2) (0 + 2) 0 10 = SampleOutcome.abort
      ↔ RF.quarters._pdf.sum = 0) ∧
    (0 < RF.quarters._pdf.sum → ∃ i : ℕ, (i : ℤ) < RF.quarters.getCount ∧
      RF.quarters.sampleNonSetCdf (fun _ => 1 / 2) (0 + 2) 0 10
        = SampleOutcome.value (RF.quarters.getVal i)) :=
  ⟨by decide!,
   sample_aborts_iff RF.quarters (fun _ => 1 / 2) (by decide!)
    (by intro v hv; simp only [RF.quarters, List.mem_cons, List.mem_singleton,
          List.not_mem_nil, or_false] at hv; rcases hv with h | h | h <;> rw [h] <;> norm_num)
    (fun _ => ⟨by norm_num, by norm_num⟩) 0 0 10⟩

/-- C14: on an `RF` whose `_cnt` bins have a positive sum, for every caller-supplied
`cumsum` and all draws of `randf` in `(0,1)`, `sampleNonSetCdf` returns within two calls
(at most one recursive call), and a call with `cumsum = 0`, as the recursive call is,
returns within one call: its scan finds a bin and it does not recurse. -/
theorem sample_one_recursion (r : RF) (draws : ℕ → ℚ) (hs : r.Sized)
    (hsum : 0 < r._pdf.sum) (hd : ∀ k, 0 < draws k ∧ draws k < 1) (k : ℕ) (cumsum : ℚ) :
    (∃ i : ℕ, (i : ℤ) < r.getCount ∧
      r.sampleNonSetCdf draws 2 k cumsum = SampleOutcome.value (r.getVal i)) ∧
    (∃ i : ℕ, (i : ℤ) < r.getCount ∧
      r.sampleNonSetCdf draws 1 (k + 1) 0 = SampleOutcome.value (r.getVal i)) :=
  ⟨sample_any r draws hs hsum hd 0 k cumsum, sample_fresh r draws hs hsum hd 0 (k + 1)⟩

/-- Witness of C14: the bins `[0, 1/4, 3/4]`, a stale `cumsum = 10`, draws `1/2`: the first
call recurses once (one call is not enough), the recursive call returns. -/
theorem sample_one_recursion_witness :
    (RF.quarters.Sized ∧ 0 < RF.quarters._pdf.sum ∧
      RF.quarters.sampleNonSetCdf (fun _ => 1 / 2) 1 0 10 = SampleOutcome.recursing) ∧
    (∃ i : ℕ, (i : ℤ) < RF.quarters.getCount ∧
      RF.quarters.sampleNonSetCdf (fun _ => 1 / 2) 2 0 10
        = SampleOutcome.value (RF.quarters.getVal i)) ∧
    (∃ i : ℕ, (i : ℤ) < RF.quarters.getCount ∧
      RF.quarters.sampleNonSetCdf (fun _ => 1 / 2) 1 (0 + 1) 0
        = SampleOutcome.value (RF.quarters.getVal i)) :=
  ⟨⟨by decide!, by decide!, by decide!⟩,
   sample_one_recursion RF.quarters (fun _ => 1 / 2) (by decide!) (by decide!)
    (fun _ => ⟨by norm_num, by norm_num⟩) 0 10⟩

/-! ### C15: `randperm` as a bijection from pick sequences to ordered subsets -/

theorem permState_succ (n : ℕ) (picks : List ℤ) (m : ℕ) :
    permState n picks (m + 1) = swapWith (permState n picks m) m (picks.getD m 0) := by
  simp only [permState, List.range_succ, List.foldl_append, List.foldl_cons, List.foldl_nil]

theorem getD_set_int (l : List ℤ) (a j : ℕ) (x : ℤ) (hj : j < l.length) :
    (l.set a x).getD j 0 = if a = j then x else l.getD j 0 := by
  rw [List.getD_eq_getElem _ _ (by simpa using hj), List.getD_eq_getElem _ _ hj,
    List.getElem_set]

theorem swapWith_length (p : List ℤ) (i : ℕ) (r : ℤ) : (swapWith p i r).length = p.length := by
  simp [swapWith]

theorem swapWith_getD (p : List ℤ) (i : ℕ) (r : ℤ) (j : ℕ) (hj : j < p.length) :
    (swapWith p i r).getD j 0
      = if i = j then p.getD r.toNat 0 else if r.toNat = j then p.getD i 0 else p.getD j 0 := by
  simp only [swapWith]
  rw [getD_set_int _ _ _ _ (by simpa using hj), getD_set_int _ _ _ _ hj]

theorem permState_perm (n : ℕ) (picks : List ℤ) (m : ℕ) (hm : m ≤ n)
    (hv : ValidUpTo n picks m) :
    List.Perm (permState n picks m) ((List.range n).map Int.ofNat) := by
  induction m with
  | zero => simp [permState]
  | succ m ih =>
    have h1 := ih (by omega) (fun i hi => hv i (by omega))
    have hlen : (permState n picks m).length = n := by rw [h1.length_eq]; simp
    obtain ⟨ha, hb⟩ := hv m (Nat.lt_succ_self m)
    rw [permState_succ]
    exact (swap_perm _ m (picks.getD m 0).toNat (by omega) (by omega)).trans h1

theorem permState_length (n : ℕ) (picks : List ℤ) (m : ℕ) :
    (permState n picks m).length = n := by
  induction m with
  | zero => simp [permState]
  | succ m ih => rw [permState_succ, swapWith_length, ih]

theorem permState_fixed (n : ℕ) (picks : List ℤ) (m j : ℕ) (hj : j < m) (hmn : m ≤ n) :
    ∀ m2, m ≤ m2 → ValidUpTo n picks m2 →
      (permState n picks m2).getD j 0 = (permState n picks m).getD j 0 := by
  intro m2 hm2
  induction m2 with
  | zero => omega
  | succ m2 ih =>
    intro hv
    by_cases he : m = m2 + 1
    · rw [he]
    · have h1 := ih (by omega) (fun i hi => hv i (by omega))
      obtain ⟨ha, _⟩ := hv m2 (Nat.lt_succ_self m2)
      rw [permState_succ, swapWith_getD _ _ _ _ (by rw [permState_length]; omega)]
      rw [if_neg (by omega), if_neg (by omega)]
      exact h1

theorem permState_at (n : ℕ) (picks : List ℤ) (m : ℕ) (hm : m < n) :
    (permState n picks (m + 1)).getD m 0
      = (permState n picks m).getD (picks.getD m 0).toNat 0 := by
  rw [permState_succ, swapWith_getD _ _ _ _ (by rw [permState_length]; exact hm), if_pos rfl]

theorem permState_congr (n : ℕ) (picks picks2 : List ℤ) (m : ℕ)
    (h : ∀ i, i < m → picks.getD i 0 = picks2.getD i 0) :
    permState n picks m = permState n picks2 m := by
  induction m with
  | zero => simp [permState]
  | succ m ih =>
    rw [permState_succ, permState_succ, ih (fun i hi => h i (by omega)), h m (Nat.lt_succ_self m)]

theorem ext_getD (l1 l2 : List ℤ) (hl : l1.length = l2.length)
    (h : ∀ j, j < l1.length → l1.getD j 0 = l2.getD j 0) : l1 = l2 := by
  apply List.ext_getElem hl
  intro j h1 h2
  have := h j h1
  rwa [List.getD_eq_getElem _ _ h1, List.getD_eq_getElem _ _ h2] at this

theorem randpermPicks_eq_take (n : ℕ) (picks : List ℤ) (hk : picks.length ≤ n) :
    randpermPicks n picks = (permState n picks picks.length).take picks.length := by
  simp only [randpermPicks, resize, permState_length, Nat.sub_eq_zero_of_le hk,
    List.replicate_zero, List.append_nil]

theorem randpermPicks_getD (n : ℕ) (picks : List ℤ) (hk : picks.length ≤ n) (j : ℕ)
    (hj : j < picks.length) :
    (randpermPicks n picks).getD j 0 = (permState n picks picks.length).getD j 0 := by
  rw [randpermPicks_eq_take n picks hk]
  rw [List.getD_eq_getElem _ _ (by simp [permState_length]; omega),
    List.getD_eq_getElem _ _ (by rw [permState_length]; omega), List.getElem_take]

theorem ident_nodup (n : ℕ) : ((List.range n).map Int.ofNat).Nodup :=
  (List.nodup_range n).map (fun a b h => by simpa using h)

theorem randpermPicks_mapsTo (n k : ℕ) (hk : k ≤ n) (picks : List ℤ)
    (hp : picks ∈ ValidPicks n k) : randpermPicks n picks ∈ DistinctInRange n k := by
  obtain ⟨hlen, hv⟩ := hp
  subst hlen
  have hperm := permState_perm n picks picks.length hk hv
  rw [randpermPicks_eq_take n picks hk]
  refine ⟨by simp [permState_length]; exact hk, ?_, ?_⟩
  · exact (hperm.nodup_iff.mpr (ident_nodup n)).sublist (List.take_sublist _ _)
  · intro x hx
    have hx2 := hperm.mem_iff.mp (List.mem_of_mem_take hx)
    simp only [List.mem_map, List.mem_range] at hx2
    obtain ⟨a, ha, rfl⟩ := hx2
    exact ⟨Int.ofNat_nonneg a, Int.ofNat_lt.mpr ha⟩

theorem randpermPicks_injOn (n k : ℕ) (hk : k ≤ n) (picks picks2 : List ℤ)
    (hp : picks ∈ ValidPicks n k) (hp2 : picks2 ∈ ValidPicks n k)
    (he : randpermPicks n picks = randpermPicks n picks2) : picks = picks2 := by
  obtain ⟨hlen, hv⟩ := hp
  obtain ⟨hlen2, hv2⟩ := hp2
  have key : ∀ m, m ≤ k → ∀ i, i < m → picks.getD i 0 = picks2.getD i 0 := by
    intro m
    induction m with
    | zero => intro _ i hi; omega
    | succ m ih =>
      intro hm i hi
      have hprev := ih (by omega)
      by_cases him : i < m
      · exact hprev i him
      · have hi2 : i = m := by omega
        subst hi2
        have hS : permState n picks i = permState n picks2 i := permState_congr n _ _ i hprev
        have hnd : (permState n picks i).Nodup :=
          (permState_perm n picks i (by omega) (fun j hj => hv j (by omega))).nodup_iff.mpr
            (ident_nodup n)
        have ho1 : (randpermPicks n picks).getD i 0
            = (permState n picks i).getD (picks.getD i 0).toNat 0 := by
          rw [randpermPicks_getD n picks (by omega) i (by omega), hlen,
            permState_fixed n picks (i + 1) i (by omega) (by omega) k (by omega) hv,
            permState_at n picks i (by omega)]
        have ho2 : (randpermPicks n picks2).getD i 0
            = (permState n picks2 i).getD (picks2.getD i 0).toNat 0 := by
          rw [randpermPicks_getD n picks2 (by omega) i (by omega), hlen2,
            permState_fixed n picks2 (i + 1) i (by omega) (by omega) k (by omega) hv2,
            permState_at n picks2 i (by omega)]
        rw [he, ho2, ← hS] at ho1
        obtain ⟨a1, b1⟩ := hv i (by omega)
        obtain ⟨a2, b2⟩ := hv2 i (by omega)
        have hl := permState_length n picks i
        have hr1 : (picks.getD i 0).toNat < (permState n picks i).length := by omega
        have hr2 : (picks2.getD i 0).toNat < (permState n picks i).length := by omega
        have e1 := List.getD_eq_getElem (permState n picks i) 0 hr1
        have e2 := List.getD_eq_getElem (permState n picks i) 0 hr2
        rw [e1, e2] at ho1
        have := (hnd.getElem_inj_iff).mp ho1
        omega
  apply ext_getD _ _ (by omega)
  intro j hj
  exact key k le_rfl j (by omega)

theorem randpermPicks_surjOn (n k : ℕ) (hk : k ≤ n) (out : List ℤ)
    (ho : out ∈ DistinctInRange n k) :
    ∃ picks, picks ∈ ValidPicks n k ∧ randpermPicks n picks = out := by
  obtain ⟨holen, hond, hor⟩ := ho
  have key : ∀ m, m ≤ k → ∃ picks : List ℤ, picks.length = m ∧ ValidUpTo n picks m ∧
      ∀ j, j < m → (permState n picks m).getD j 0 = out.getD j 0 := by
    intro m
    induction m with
    | zero => intro _; exact ⟨[], rfl, fun i hi => by omega, fun j hj => by omega⟩
    | succ m ih =>
      intro hm
      obtain ⟨picks, hpl, hpv, hpo⟩ := ih (by omega)
      have hml : m < out.length := by omega
      have hx := hor (out[m]) (List.getElem_mem hml)
      have hperm := permState_perm n picks m (by omega) hpv
      have hmem : out[m] ∈ permState n picks m := by
        rw [hperm.mem_iff]
        simp only [List.mem_map, List.mem_range]
        exact ⟨(out[m]).toNat, by omega, by simp [Int.toNat_of_nonneg hx.1]⟩
      obtain ⟨r, hr, hrv⟩ := List.getElem_of_mem hmem
      have hSl := permState_length n picks m
      have hmr : m ≤ r := by
        by_contra hcon
        have h1 := hpo r (by omega)
        rw [List.getD_eq_getElem _ _ hr, List.getD_eq_getElem _ _ (by omega), hrv] at h1
        have := (hond.getElem_inj_iff).mp h1
        omega
      have hg1 : ∀ i, i < m → (picks ++ [(r : ℤ)]).getD i 0 = picks.getD i 0 := by
        intro i hi
        exact List.getD_append _ _ _ _ (by omega)
      have hg2 : (picks ++ [(r : ℤ)]).getD m 0 = (r : ℤ) := by
        rw [List.getD_append_right _ _ _ _ (by omega), hpl]
        simp
      have hS : permState n (picks ++ [(r : ℤ)]) m = permState n picks m :=
        permState_congr n _ _ m hg1
      have hvalid : ValidUpTo n (picks ++ [(r : ℤ)]) (m + 1) := by
        intro i hi
        by_cases him : i < m
        · rw [hg1 i him]; exact hpv i him
        · have : i = m := by omega
          subst this
          rw [hg2]
          omega
      refine ⟨picks ++ [(r : ℤ)], by simp [hpl], hvalid, ?_⟩
      intro j hj
      by_cases hjm : j < m
      · rw [permState_fixed n _ m j hjm (by omega) (m + 1) (by omega) hvalid, hS]
        exact hpo j hjm
      · have : j = m := by omega
        subst this
        rw [permState_at n _ j (by omega), hg2, hS, Int.toNat_ofNat,
          List.getD_eq_getElem _ _ hr, hrv, List.getD_eq_getElem _ _ hml]
  obtain ⟨picks, hpl, hpv, hpo⟩ := key k le_rfl
  refine ⟨picks, ⟨hpl, hpv⟩, ?_⟩
  have hmt := randpermPicks_mapsTo n k hk picks ⟨hpl, hpv⟩
  apply ext_getD _ _ (by rw [hmt.1, holen])
  intro j hj
  rw [hmt.1] at hj
  rw [randpermPicks_getD n picks (by omega) j (by omega), hpl]
  exact hpo j hj

theorem picks_of_draws_getD (n : ℤ) (draws : ℕ → ℚ) (k i : ℕ) (hi : i < k) :
    ((List.range k).map (fun (i : ℕ) => randi (i : ℤ) (n - 1) (draws i))).getD i 0
      = randi (i : ℤ) (n - 1) (draws i) := by
  rw [List.getD_eq_getElem _ _ (by simpa using hi)]
  simp

theorem randperm_eq_picks (draws : ℕ → ℚ) (n k : ℕ) (hk : k ≤ n) :
    randperm draws n k
      = randpermPicks n ((List.range k).map (fun (i : ℕ) => randi (i : ℤ) ((n : ℤ) - 1) (draws i))) := by
  have h1 : ¬ ((k : ℤ) < 0) := by omega
  have h2 : ¬ ((k : ℤ) > n) := by omega
  simp only [randperm, h1, h2, if_false, Int.toNat_ofNat, randpermPicks, permState,
    List.length_map, List.length_range]
  congr 1
  apply List.foldl_ext
  intro p i hi
  rw [picks_of_draws_getD (n : ℤ) draws k i (List.mem_range.mp hi)]
  rfl

theorem picks_of_draws_valid (draws : ℕ → ℚ) (n k : ℕ) (hk : k ≤ n)
    (hd : ∀ i, 0 < draws i ∧ draws i < 1) :
    (List.range k).map (fun (i : ℕ) => randi (i : ℤ) ((n : ℤ) - 1) (draws i)) ∈ ValidPicks n k := by
  refine ⟨by simp, ?_⟩
  intro i hi
  rw [picks_of_draws_getD (n : ℤ) draws k i hi]
  have := randi_mem_range (i : ℤ) (n : ℤ) (draws i) (by omega) (hd i).1 (hd i).2
  omega

theorem randi_onto (i n r : ℤ) (h1 : i ≤ r) (h2 : r ≤ n - 1) :
    ∃ u : ℚ, 0 < u ∧ u < 1 ∧ randi i (n - 1) u = r := by
  have hpos : (0 : ℚ) < ((n - 1 - i + 1 : ℤ) : ℚ) := by
    have : (0 : ℤ) < n - 1 - i + 1 := by omega
    exact_mod_cast this
  have hri : (0 : ℚ) ≤ ((r - i : ℤ) : ℚ) := by
    have : (0 : ℤ) ≤ r - i := by omega
    exact_mod_cast this
  have hrn : ((r - i : ℤ) : ℚ) + 1 ≤ ((n - 1 - i + 1 : ℤ) : ℚ) := by
    have : r - i + 1 ≤ n - 1 - i + 1 := by omega
    exact_mod_cast this
  refine ⟨(((r - i : ℤ) : ℚ) + 1 / 2) / ((n - 1 - i + 1 : ℤ) : ℚ), by positivity, ?_, ?_⟩
  · rw [div_lt_one hpos]; linarith
  · have hx : ((n - 1 - i + 1 : ℤ) : ℚ)
        * ((((r - i : ℤ) : ℚ) + 1 / 2) / ((n - 1 - i + 1 : ℤ) : ℚ))
        = ((r - i : ℤ) : ℚ) + 1 / 2 := by
      rw [← mul_div_assoc, mul_div_cancel_left₀ _ (ne_of_gt hpos)]
    unfold randi
    rw [hx, truncToInt_of_nonneg (by linarith)]
    have : ⌊((r - i : ℤ) : ℚ) + 1 / 2⌋ = r - i := by
      rw [Int.floor_eq_iff]
      constructor <;> linarith
    rw [this]
    ring

theorem pickProb_succ (n k : ℕ) :
    pickProb n (k + 1) = pickProb n k * (1 / ((n : ℚ) - (k : ℚ))) := by
  simp only [pickProb, List.range_succ, List.map_append, List.prod_append, List.map_cons,
    List.map_nil, List.prod_cons, List.prod_nil, mul_one]

theorem pickProb_eq (n k : ℕ) (hk : k ≤ n) :
    pickProb n k = ((n - k).factorial : ℚ) / (n.factorial : ℚ) := by
  induction k with
  | zero =>
    have : (n.factorial : ℚ) ≠ 0 := by exact_mod_cast Nat.factorial_ne_zero n
    simp [pickProb, this]
  | succ k ih =>
    rw [pickProb_succ, ih (by omega)]
    obtain ⟨d, hd⟩ : ∃ d, n - k = d + 1 := ⟨n - k - 1, by omega⟩
    have hd2 : n - (k + 1) = d := by omega
    have hnk : (n : ℚ) - (k : ℚ) = (d : ℚ) + 1 := by
      have : n = d + 1 + k := by omega
      rw [this]; push_cast; ring
    rw [hd, hd2, Nat.factorial_succ, hnk]
    have h1 : (n.factorial : ℚ) ≠ 0 := by exact_mod_cast Nat.factorial_ne_zero n
    have h2 : (d : ℚ) + 1 ≠ 0 := by positivity
    push_cast
    field_simp
    ring

/-- C15: for `0 ≤ k ≤ n`, `randperm(n, k)` is the function `randpermPicks` of the values the
calls `randi(i, n-1)` return; draws in `(0,1)` give values with `i ≤ r_i ≤ n-1`, and each such
value is returned for some draw; on these sequences the function is a bijection onto the
length-`k` sequences of pairwise distinct values in `[0, n)`; and independent uniform picks
produce each sequence, hence each ordered `k`-subset, with probability `(n-k)!/n!`. -/
theorem randperm_bijection (n k : ℕ) (hk : k ≤ n) :
    (∀ draws : ℕ → ℚ, randperm draws n k
      = randpermPicks n ((List.range k).map (fun (i : ℕ) => randi (i : ℤ) ((n : ℤ) - 1) (draws i)))) ∧
    (∀ draws : ℕ → ℚ, (∀ i, 0 < draws i ∧ draws i < 1) →
      (List.range k).map (fun (i : ℕ) => randi (i : ℤ) ((n : ℤ) - 1) (draws i)) ∈ ValidPicks n k) ∧
    (∀ (i : ℕ) (r : ℤ), (i : ℤ) ≤ r → r ≤ (n : ℤ) - 1 →
      ∃ u : ℚ, 0 < u ∧ u < 1 ∧ randi (i : ℤ) ((n : ℤ) - 1) u = r) ∧
    Set.BijOn (randpermPicks n) (ValidPicks n k) (DistinctInRange n k) ∧
    pickProb n k = ((n - k).factorial : ℚ) / (n.factorial : ℚ) :=
  ⟨fun draws => randperm_eq_picks draws n k hk,
   fun draws hd => picks_of_draws_valid draws n k hk hd,
   fun i r h1 h2 => randi_onto (i : ℤ) (n : ℤ) r h1 h2,
   ⟨fun picks hp => randpermPicks_mapsTo n k hk picks hp,
    fun p1 hp1 p2 hp2 he => randpermPicks_injOn n k hk p1 p2 hp1 hp2 he,
    fun out ho => by
      obtain ⟨picks, hp, he⟩ := randpermPicks_surjOn n k hk out ho
      exact ⟨picks, hp, he⟩⟩,
   pickProb_eq n k hk⟩

/-- Witness of C15 at `n = 3`, `k = 2`. -/
theorem randperm_bijection_witness :
    (2 : ℕ) ≤ 3 ∧
    Set.BijOn (randpermPicks 3) (ValidPicks 3 2) (DistinctInRange 3 2) ∧
    pickProb 3 2 = (((3 - 2 : ℕ).factorial : ℕ) : ℚ) / ((Nat.factorial 3 : ℕ) : ℚ) :=
  ⟨by decide, (randperm_bijection 3 2 (by decide)).2.2.2⟩

/-! ### C6: `init` with the asserts compiled out -/

theorem initNoAssert_of_init (r r2 : RF) (minV mavV w : ℚ)
    (h : r.init minV mavV w = some r2) : r.initNoAssert minV mavV w = r2 := by
  simp only [RF.init] at h
  split_ifs at h with h1 h2 h3
  · omega
  · simp only [RF.initNoAssert, h3, if_false]
    exact Option.some.inj h

/-- C6 fails on the code: on the `RF` that `setUniformInt(0,1)` and `setCdf(2)` produce
(`_cdfCount = 4`), `init(0, 1, -1)` computes `_cnt = (int)0.01 = 0`; with the asserts
compiled out it leaves through `if(_cnt <= 0) return;` with `_cnt`, `_minV`, `_w`, `_wInv`
changed and `_cdfCount` still `4` (with asserts active the second assert aborts). -/
theorem init_early_return_keeps_cdfCount :
    (RF.empty.setUniformInt 0 1).bind (fun r => r.setCdf 2) = some (RF.built, true) ∧
    RF.built._cdfCount = 4 ∧
    (RF.built.initNoAssert 0 1 (-1))._cnt = 0 ∧
    (RF.built.initNoAssert 0 1 (-1))._w = -1 ∧
    (RF.built.initNoAssert 0 1 (-1))._cdfCount = 4 ∧
    RF.built.init 0 1 (-1) = none := by
  refine ⟨by decide!, by decide!, by decide!, by decide!, by decide!, by decide!⟩

/-! ### C19: the `int` product in `setCdf` -/

theorem wrap32_of_fits (x : ℤ) (h : Fits32 x) : wrap32 x = x := by
  unfold Fits32 at h
  unfold wrap32
  omega

theorem setCdf32_eq_setCdf (r : RF) (countPerBin : ℤ)
    (hfit : Fits32 ((if countPerBin < 1 then 1 else countPerBin) * r.normalize.1.getCount)) :
    r.setCdf32 countPerBin = r.setCdf countPerBin := by
  simp only [RF.setCdf32, RF.setCdf, wrap32_of_fits _ hfit]

/-- C19 fails on the code: on the two non-negative bins `[1/5, 4/5]` (set by `init(0,1,1)`,
`setOneBin(0, 0.2)`, `setOneBin(1, 0.8)`), `setCdf(2147483647)`
multiplies the `int`s `2147483647 * 2`, which wraps to `-2`, so `_cdfCount = -2` instead of
`min(1000000, 2147483647 * 2) = 1000000`; the table has no cell and the first write
`_cdfLookup(0) = 0` of the fill loop is outside it. -/
theorem setCdf32_overflow_writes_outside :
    ((RF.empty.init 0 1 1).bind (fun r => r.setOneBin 0 (1 / 5))).bind
      (fun r => r.setOneBin 1 (4 / 5)) = some RF.fifths ∧
    (RF.fifths.Sized ∧ 0 < RF.fifths._pdf.sum ∧ RF.fifths.getCount = 2) ∧
    wrap32 (2147483647 * 2) = -2 ∧
    min 1000000 (max (2147483647 : ℤ) 1 * RF.fifths.getCount) = 1000000 ∧
    ({ RF.fifths.normalize.1 with _cdfCount := -2 } : RF).fillLookup = none ∧
    RF.fifths.setCdf32 2147483647 = none := by
  refine ⟨by decide!, ⟨by decide!, by decide!, by decide!⟩, by decide!, by decide!,
    by decide!, by decide!⟩

/-- Without overflow the 32-bit evaluation behaves as C19 says: on an `RF` whose `_cnt` bins
are non-negative with positive sum, when `max(countPerBin,1) * binCount` fits an `int`,
`setCdf` returns true with `_cdfCount = min(1000000, max(countPerBin,1) * binCount)`, a table
of `_cdfCount` entries, each a bin index in `[0, binCount)`, in non-decreasing order. -/
theorem setCdf32_fill_exact (r : RF) (countPerBin : ℤ) (hs : r.Sized)
    (hnn : ∀ v ∈ r._pdf, 0 ≤ v) (hsum : 0 < r._pdf.sum)
    (hfit : Fits32 (max countPerBin 1 * r.getCount)) :
    ∃ r2, r.setCdf32 countPerBin = some (r2, true) ∧
      r2._cdfCount = min 1000000 (max countPerBin 1 * r.getCount) ∧
      (r2._cdfLookup.length : ℤ) = r2._cdfCount ∧
      (∀ j : ℕ, (j : ℤ) < r2._cdfCount →
        ∃ i : ℕ, at? r2._cdfLookup j = some (i : ℤ) ∧ (i : ℤ) < r2.getCount) ∧
      (∀ (j1 j2 : ℕ) (i1 i2 : ℤ), j1 ≤ j2 → at? r2._cdfLookup j1 = some i1 →
        at? r2._cdfLookup j2 = some i2 → i1 ≤ i2) := by
  have hmax : (if countPerBin < 1 then (1 : ℤ) else countPerBin) = max countPerBin 1 := by
    rw [max_def]; split_ifs <;> omega
  have hfit2 : Fits32 ((if countPerBin < 1 then 1 else countPerBin)
      * r.normalize.1.getCount) := by
    rw [hmax, RF.getCount, normalize_cnt]
    exact hfit
  obtain ⟨r2, cum, h1, h2, _, h3, h4, h5⟩ := setCdf_fill_exact r countPerBin hs hnn hsum
  exact ⟨r2, by rw [setCdf32_eq_setCdf r countPerBin hfit2]; exact h1, h2, h3, h4, h5⟩

end Rand
